import Mathlib

/-!
Verification of the resource-management core of a teaching OS kernel:
the reference-counted physical frame allocator (src/kernel/kalloc.c) and
the sharded disk block cache (src/unnamed/part_000, the defensive variant
of bio.c that the specification follows; see spec section 9).

The C code is shallowly embedded: machine integers become Nat/Int,
fallible code (panics) returns Option, memory fills are tracked as a
per-page fill byte, and the sequential semantics of each operation is
translated function by function from the source.
-/

/-- Page size in bytes; kalloc.c allocates whole 4096-byte pages. -/
def PGSIZE : Nat := 4096

/-- Pointwise update of a function at one key (models an array store). -/
def updF {α : Type} (f : Nat → α) (k : Nat) (v : α) : Nat → α :=
  fun m => if m = k then v else f m

theorem updF_self {α : Type} (f : Nat → α) (k : Nat) (v : α) : updF f k v k = v := by
  simp [updF]

theorem updF_ne {α : Type} (f : Nat → α) (k : Nat) (v : α) (m : Nat) (h : m ≠ k) :
    updF f k v m = f m := by
  simp [updF, h]

/-- State of the physical frame allocator: the per-page reference counts
(`kref.ref`, an int array indexed by page number `pa / PGSIZE`), the free
list of page addresses (`kmem.freelist`), and the byte each page was last
memset-filled with (abstracting the page contents). -/
structure KState where
  ref : Nat → Int
  freelist : List Nat
  fill : Nat → Nat

/-- Embeds `increref` from kalloc.c: adds an arbitrary signed delta to the
reference count of the page containing `pa` and returns the new count.
There is no check of any kind in the source. -/
def increref (s : KState) (pa : Nat) (count : Int) : KState × Int :=
  ({ s with ref := updF s.ref (pa / PGSIZE) (s.ref (pa / PGSIZE) + count) },
   s.ref (pa / PGSIZE) + count)

/-- Embeds `kfree` from kalloc.c. `kend` models the linker symbol `end`
(first address after the kernel image) and `physTop` models PHYSTOP; both
are parameters because memlayout.h is not part of the given sources.
`none` models a panic. The page is filled with byte 1 (memset junk) when
it is pushed on the free list. -/
def kfree (kend physTop : Nat) (s : KState) (pa : Nat) : Option KState :=
  if pa % PGSIZE ≠ 0 ∨ pa < kend ∨ physTop ≤ pa then none
  else if s.ref (pa / PGSIZE) ≤ 0 then none
  else if 0 < s.ref (pa / PGSIZE) - 1 then
    some { s with ref := updF s.ref (pa / PGSIZE) (s.ref (pa / PGSIZE) - 1) }
  else
    some { s with ref := updF s.ref (pa / PGSIZE) (s.ref (pa / PGSIZE) - 1),
                  fill := updF s.fill (pa / PGSIZE) 1,
                  freelist := pa :: s.freelist }

/-- Embeds `kalloc` from kalloc.c: pops the free-list head; a popped page
whose reference count is not 0 is a panic (`none`); otherwise the count
becomes 1 and the page is filled with byte 5. An empty free list yields
the null result `(s, none)`, not a panic. -/
def kalloc (s : KState) : Option (KState × Option Nat) :=
  match s.freelist with
  | [] => some (s, none)
  | r :: rest =>
      if s.ref (r / PGSIZE) ≠ 0 then none
      else some ({ s with ref := updF s.ref (r / PGSIZE) 1,
                          freelist := rest,
                          fill := updF s.fill (r / PGSIZE) 5 }, some r)

/-- C3: `kfree` fails fatally on a misaligned, below-kernel or
at-or-above-ceiling address; otherwise fails fatally when the count was
already ≤ 0; otherwise decrements, leaving the free list untouched when
the new count is positive, and filling the page with the diagnostic byte
and pushing it when the count reaches 0. -/
theorem kfree_cases (kend physTop : Nat) (s : KState) (pa : Nat) :
    (pa % PGSIZE ≠ 0 ∨ pa < kend ∨ physTop ≤ pa → kfree kend physTop s pa = none) ∧
    (pa % PGSIZE = 0 → kend ≤ pa → pa < physTop → s.ref (pa / PGSIZE) ≤ 0 →
      kfree kend physTop s pa = none) ∧
    (pa % PGSIZE = 0 → kend ≤ pa → pa < physTop → 1 < s.ref (pa / PGSIZE) →
      ∃ s', kfree kend physTop s pa = some s' ∧
        s'.ref (pa / PGSIZE) = s.ref (pa / PGSIZE) - 1 ∧
        (∀ m, m ≠ pa / PGSIZE → s'.ref m = s.ref m) ∧
        s'.freelist = s.freelist ∧ s'.fill = s.fill) ∧
    (pa % PGSIZE = 0 → kend ≤ pa → pa < physTop → s.ref (pa / PGSIZE) = 1 →
      ∃ s', kfree kend physTop s pa = some s' ∧
        s'.ref (pa / PGSIZE) = 0 ∧
        (∀ m, m ≠ pa / PGSIZE → s'.ref m = s.ref m) ∧
        s'.freelist = pa :: s.freelist ∧
        s'.fill (pa / PGSIZE) = 1 ∧
        (∀ m, m ≠ pa / PGSIZE → s'.fill m = s.fill m)) := by
  refine ⟨?_, ?_, ?_, ?_⟩
  · intro h
    unfold kfree
    rw [if_pos h]
  · intro h1 h2 h3 h4
    have hc : ¬(pa % PGSIZE ≠ 0 ∨ pa < kend ∨ physTop ≤ pa) := by
      push_neg
      exact ⟨h1, h2, h3⟩
    unfold kfree
    rw [if_neg hc, if_pos h4]
  · intro h1 h2 h3 h4
    have hc : ¬(pa % PGSIZE ≠ 0 ∨ pa < kend ∨ physTop ≤ pa) := by
      push_neg
      exact ⟨h1, h2, h3⟩
    have h5 : ¬ s.ref (pa / PGSIZE) ≤ 0 := by omega
    have h6 : 0 < s.ref (pa / PGSIZE) - 1 := by omega
    refine ⟨{ s with ref := updF s.ref (pa / PGSIZE) (s.ref (pa / PGSIZE) - 1) },
      ?_, ?_, ?_, rfl, rfl⟩
    · unfold kfree
      rw [if_neg hc, if_neg h5, if_pos h6]
    · exact updF_self _ _ _
    · intro m hm
      exact updF_ne _ _ _ _ hm
  · intro h1 h2 h3 h4
    have hc : ¬(pa % PGSIZE ≠ 0 ∨ pa < kend ∨ physTop ≤ pa) := by
      push_neg
      exact ⟨h1, h2, h3⟩
    have h5 : ¬ s.ref (pa / PGSIZE) ≤ 0 := by omega
    have h6 : ¬ 0 < s.ref (pa / PGSIZE) - 1 := by omega
    refine ⟨{ s with ref := updF s.ref (pa / PGSIZE) (s.ref (pa / PGSIZE) - 1),
                     fill := updF s.fill (pa / PGSIZE) 1,
                     freelist := pa :: s.freelist },
      ?_, ?_, ?_, rfl, ?_, ?_⟩
    · unfold kfree
      rw [if_neg hc, if_neg h5, if_neg h6]
    · show updF s.ref (pa / PGSIZE) (s.ref (pa / PGSIZE) - 1) (pa / PGSIZE) = 0
      rw [updF_self, h4]
      decide
    · intro m hm
      exact updF_ne _ _ _ _ hm
    · exact updF_self _ _ _
    · intro m hm
      exact updF_ne _ _ _ _ hm

/-- Witness for `kfree_cases`: a concrete state with page 1 at count 2;
freeing a misaligned address panics, freeing page 1 decrements to 1 and
leaves the free list alone. -/
theorem kfree_cases_witness :
    kfree 4096 12288 ⟨updF (fun _ => 0) 1 2, [], fun _ => 0⟩ 100 = none ∧
    (∃ s', kfree 4096 12288 ⟨updF (fun _ => 0) 1 2, [], fun _ => 0⟩ 4096 = some s' ∧
      s'.ref (4096 / PGSIZE) = (⟨updF (fun _ => 0) 1 2, [], fun _ => 0⟩ : KState).ref (4096 / PGSIZE) - 1 ∧
      (∀ m, m ≠ 4096 / PGSIZE → s'.ref m = (⟨updF (fun _ => 0) 1 2, [], fun _ => 0⟩ : KState).ref m) ∧
      s'.freelist = (⟨updF (fun _ => 0) 1 2, [], fun _ => 0⟩ : KState).freelist ∧
      s'.fill = (⟨updF (fun _ => 0) 1 2, [], fun _ => 0⟩ : KState).fill) :=
  ⟨(kfree_cases 4096 12288 ⟨updF (fun _ => 0) 1 2, [], fun _ => 0⟩ 100).1 (by decide),
   (kfree_cases 4096 12288 ⟨updF (fun _ => 0) 1 2, [], fun _ => 0⟩ 4096).2.2.1
     (by decide) (by decide) (by decide) (by decide)⟩

/-- C4: `kalloc` pops the free-list head; on a non-empty list it panics
when the popped page's count is not 0, otherwise sets the count to 1,
fills the page with the non-zero byte 5 and returns it; on an empty list
it returns the null result without failing. -/
theorem kalloc_cases (s : KState) :
    (s.freelist = [] → kalloc s = some (s, none)) ∧
    (∀ r rest, s.freelist = r :: rest →
      (s.ref (r / PGSIZE) ≠ 0 → kalloc s = none) ∧
      (s.ref (r / PGSIZE) = 0 →
        ∃ s', kalloc s = some (s', some r) ∧
          s'.freelist = rest ∧
          s'.ref (r / PGSIZE) = 1 ∧
          (∀ m, m ≠ r / PGSIZE → s'.ref m = s.ref m) ∧
          s'.fill (r / PGSIZE) = 5 ∧
          (∀ m, m ≠ r / PGSIZE → s'.fill m = s.fill m))) := by
  constructor
  · intro h
    unfold kalloc
    rw [h]
  · intro r rest h
    constructor
    · intro hr
      unfold kalloc
      rw [h]
      simp [hr]
    · intro hr
      refine ⟨{ s with ref := updF s.ref (r / PGSIZE) 1,
                       freelist := rest,
                       fill := updF s.fill (r / PGSIZE) 5 },
        ?_, rfl, ?_, ?_, ?_, ?_⟩
      · unfold kalloc
        rw [h]
        simp [hr]
      · exact updF_self _ _ _
      · intro m hm
        exact updF_ne _ _ _ _ hm
      · exact updF_self _ _ _
      · intro m hm
        exact updF_ne _ _ _ _ hm

/-- Witness for `kalloc_cases`: allocating from the free list `[4096]`
with all counts 0 returns page address 4096 with count 1 and fill byte 5. -/
theorem kalloc_cases_witness :
    ∃ s', kalloc ⟨fun _ => 0, [4096], fun _ => 0⟩ = some (s', some 4096) ∧
      s'.freelist = [] ∧
      s'.ref (4096 / PGSIZE) = 1 ∧
      (∀ m, m ≠ 4096 / PGSIZE → s'.ref m = (⟨fun _ => 0, [4096], fun _ => 0⟩ : KState).ref m) ∧
      s'.fill (4096 / PGSIZE) = 5 ∧
      (∀ m, m ≠ 4096 / PGSIZE → s'.fill m = (⟨fun _ => 0, [4096], fun _ => 0⟩ : KState).fill m) :=
  ((kalloc_cases ⟨fun _ => 0, [4096], fun _ => 0⟩).2 4096 [] rfl).2 (by decide)

/-- Page-rounding up, as riscv.h's PGROUNDUP macro computes it. -/
def PGROUNDUP (a : Nat) : Nat := ((a + PGSIZE - 1) / PGSIZE) * PGSIZE

/-- The page addresses visited by the `freerange` loop:
`p = PGROUNDUP(pa_start); for(; p + PGSIZE <= pa_end; p += PGSIZE)`. -/
def initPages (paStart paEnd : Nat) : List Nat :=
  (List.range ((paEnd - PGROUNDUP paStart) / PGSIZE)).map
    (fun i => PGROUNDUP paStart + i * PGSIZE)

/-- One `freerange` loop body: set the page's reference count to 1, then
call `kfree` on it. -/
def freerangeStep (kend physTop : Nat) (s : KState) (p : Nat) : Option KState :=
  kfree kend physTop { s with ref := updF s.ref (p / PGSIZE) 1 } p

def freerangeGo (kend physTop : Nat) (s : KState) : List Nat → Option KState
  | [] => some s
  | p :: rest =>
      match freerangeStep kend physTop s p with
      | none => none
      | some s' => freerangeGo kend physTop s' rest

/-- Embeds `freerange` from kalloc.c. -/
def freerange (kend physTop : Nat) (s : KState) (paStart paEnd : Nat) : Option KState :=
  freerangeGo kend physTop s (initPages paStart paEnd)

/-- Embeds `kinit` from kalloc.c: all counters and the free list start
zero-initialized (C static storage), then `freerange(end, PHYSTOP)`. -/
def kinit (kend physTop : Nat) : Option KState :=
  freerange kend physTop ⟨fun _ => 0, [], fun _ => 0⟩ kend physTop

/-- The three frame-allocator operations of the specification. -/
inductive KOp where
  | alloc : KOp
  | free : Nat → KOp
  | addref : Nat → Int → KOp
deriving DecidableEq

def kstep (kend physTop : Nat) (s : KState) : KOp → Option KState
  | .alloc => (kalloc s).map (fun q => q.1)
  | .free pa => kfree kend physTop s pa
  | .addref pa c => some (increref s pa c).1

def runK (kend physTop : Nat) (s : KState) : List KOp → Option KState
  | [] => some s
  | op :: rest =>
      match kstep kend physTop s op with
      | none => none
      | some s' => runK kend physTop s' rest

/-- Guard of the amended C2: `add_reference` is only ever applied with a
positive delta to a frame whose count is already positive (as the
copy-on-write consumer does); `allocate` and `free` are unrestricted. -/
def okKOp (s : KState) : KOp → Bool
  | .addref pa c => decide (0 < s.ref (pa / PGSIZE)) && decide (0 < c)
  | _ => true

def okKSeq (kend physTop : Nat) (s : KState) : List KOp → Bool
  | [] => true
  | op :: rest =>
      okKOp s op &&
        (match kstep kend physTop s op with
         | none => true
         | some s' => okKSeq kend physTop s' rest)

/-- The frame-allocator invariant: counts are non-negative, free-listed
frames have count 0, and no page is free-listed twice. -/
def KInv (s : KState) : Prop :=
  (∀ n, 0 ≤ s.ref n) ∧
  (∀ pa ∈ s.freelist, s.ref (pa / PGSIZE) = 0) ∧
  (s.freelist.map (fun pa => pa / PGSIZE)).Nodup

theorem kstep_KInv (kend physTop : Nat) (s s' : KState) (op : KOp)
    (hinv : KInv s) (hok : okKOp s op = true) (hstep : kstep kend physTop s op = some s') :
    KInv s' := by
  obtain ⟨h1, h2, h3⟩ := hinv
  cases op with
  | alloc =>
    simp only [kstep, kalloc] at hstep
    cases hfl : s.freelist with
    | nil =>
      rw [hfl] at hstep
      simp at hstep
      rw [← hstep]
      exact ⟨h1, h2, h3⟩
    | cons r rest =>
      rw [hfl] at hstep
      by_cases hr : s.ref (r / PGSIZE) ≠ 0
      · simp [hr] at hstep
      · simp [hr] at hstep
        rw [hfl] at h2 h3
        simp only [List.map_cons, List.nodup_cons] at h3
        subst hstep
        refine ⟨?_, ?_, ?_⟩
        · intro n
          show 0 ≤ updF s.ref (r / PGSIZE) 1 n
          by_cases hn : n = r / PGSIZE
          · subst hn
            rw [updF_self]
            decide
          · rw [updF_ne _ _ _ _ hn]
            exact h1 n
        · intro pa hpa
          have hpa' : pa ∈ rest := hpa
          have hne : pa / PGSIZE ≠ r / PGSIZE := by
            intro he
            exact h3.1 (he ▸ List.mem_map_of_mem (fun x => x / PGSIZE) hpa')
          show updF s.ref (r / PGSIZE) 1 (pa / PGSIZE) = 0
          rw [updF_ne _ _ _ _ hne]
          exact h2 pa (List.mem_cons_of_mem r hpa')
        · show (List.map (fun pa => pa / PGSIZE) rest).Nodup
          exact h3.2
  | free pa =>
    simp only [kstep, kfree] at hstep
    by_cases hc : pa % PGSIZE ≠ 0 ∨ pa < kend ∨ physTop ≤ pa
    · rw [if_pos hc] at hstep
      exact absurd hstep (by simp)
    · rw [if_neg hc] at hstep
      by_cases hz : s.ref (pa / PGSIZE) ≤ 0
      · rw [if_pos hz] at hstep
        exact absurd hstep (by simp)
      · rw [if_neg hz] at hstep
        by_cases hpos : 0 < s.ref (pa / PGSIZE) - 1
        · rw [if_pos hpos] at hstep
          simp only [Option.some_inj] at hstep
          refine ⟨?_, ?_, ?_⟩
          · intro n
            rw [← hstep]
            by_cases hn : n = pa / PGSIZE
            · subst hn
              show updF s.ref (pa / PGSIZE) (s.ref (pa / PGSIZE) - 1) (pa / PGSIZE) ≥ 0
              rw [updF_self]
              omega
            · show 0 ≤ updF s.ref (pa / PGSIZE) (s.ref (pa / PGSIZE) - 1) n
              rw [updF_ne _ _ _ _ hn]
              exact h1 n
          · intro q hq
            rw [← hstep] at hq ⊢
            have hq' : q ∈ s.freelist := hq
            have hne : q / PGSIZE ≠ pa / PGSIZE := by
              intro he
              have := h2 q hq'
              rw [he] at this
              omega
            show updF s.ref (pa / PGSIZE) (s.ref (pa / PGSIZE) - 1) (q / PGSIZE) = 0
            rw [updF_ne _ _ _ _ hne]
            exact h2 q hq'
          · rw [← hstep]
            exact h3
        · rw [if_neg hpos] at hstep
          simp only [Option.some_inj] at hstep
          have hnotin : pa / PGSIZE ∉ s.freelist.map (fun q => q / PGSIZE) := by
            intro hmem
            obtain ⟨q, hq, he⟩ := List.mem_map.mp hmem
            have := h2 q hq
            rw [he] at this
            omega
          refine ⟨?_, ?_, ?_⟩
          · intro n
            rw [← hstep]
            by_cases hn : n = pa / PGSIZE
            · subst hn
              show 0 ≤ updF s.ref (pa / PGSIZE) (s.ref (pa / PGSIZE) - 1) (pa / PGSIZE)
              rw [updF_self]
              omega
            · show 0 ≤ updF s.ref (pa / PGSIZE) (s.ref (pa / PGSIZE) - 1) n
              rw [updF_ne _ _ _ _ hn]
              exact h1 n
          · intro q hq
            rw [← hstep] at hq ⊢
            simp only [List.mem_cons] at hq
            show updF s.ref (pa / PGSIZE) (s.ref (pa / PGSIZE) - 1) (q / PGSIZE) = 0
            rcases hq with hq | hq
            · subst hq
              rw [updF_self]
              omega
            · have hne : q / PGSIZE ≠ pa / PGSIZE := by
                intro he
                have := h2 q hq
                rw [he] at this
                omega
              rw [updF_ne _ _ _ _ hne]
              exact h2 q hq
          · rw [← hstep]
            simp only [List.map_cons, List.nodup_cons]
            exact ⟨hnotin, h3⟩
  | addref pa c =>
    simp only [kstep, increref, Option.some_inj] at hstep
    simp only [okKOp, Bool.and_eq_true, decide_eq_true_eq] at hok
    refine ⟨?_, ?_, ?_⟩
    · intro n
      rw [← hstep]
      by_cases hn : n = pa / PGSIZE
      · subst hn
        show 0 ≤ updF s.ref (pa / PGSIZE) (s.ref (pa / PGSIZE) + c) (pa / PGSIZE)
        rw [updF_self]
        omega
      · show 0 ≤ updF s.ref (pa / PGSIZE) (s.ref (pa / PGSIZE) + c) n
        rw [updF_ne _ _ _ _ hn]
        exact h1 n
    · intro q hq
      rw [← hstep] at hq ⊢
      have hq' : q ∈ s.freelist := hq
      have hne : q / PGSIZE ≠ pa / PGSIZE := by
        intro he
        have := h2 q hq'
        rw [he] at this
        omega
      show updF s.ref (pa / PGSIZE) (s.ref (pa / PGSIZE) + c) (q / PGSIZE) = 0
      rw [updF_ne _ _ _ _ hne]
      exact h2 q hq'
    · rw [← hstep]
      exact h3

theorem runK_KInv (kend physTop : Nat) (ops : List KOp) :
    ∀ s s', KInv s → okKSeq kend physTop s ops = true →
      runK kend physTop s ops = some s' → KInv s' := by
  induction ops with
  | nil =>
    intro s s' hinv _ hrun
    simp only [runK, Option.some_inj] at hrun
    rw [← hrun]
    exact hinv
  | cons op rest ih =>
    intro s s' hinv hok hrun
    simp only [okKSeq, Bool.and_eq_true] at hok
    simp only [runK] at hrun
    cases hstep : kstep kend physTop s op with
    | none =>
      rw [hstep] at hrun
      exact absurd hrun (by simp)
    | some s1 =>
      rw [hstep] at hrun
      have hok2 := hok.2
      rw [hstep] at hok2
      exact ih s1 s' (kstep_KInv kend physTop s s1 op hinv hok.1 hstep) hok2 hrun

theorem initPages_div (paStart paEnd p : Nat) (hp : p ∈ initPages paStart paEnd) :
    ∃ i, i < (paEnd - PGROUNDUP paStart) / PGSIZE ∧
      p = PGROUNDUP paStart + i * PGSIZE ∧
      p / PGSIZE = PGROUNDUP paStart / PGSIZE + i := by
  simp only [initPages, List.mem_map, List.mem_range] at hp
  obtain ⟨i, hi, he⟩ := hp
  refine ⟨i, hi, he.symm, ?_⟩
  rw [← he]
  exact Nat.add_mul_div_right _ _ (show 0 < PGSIZE by decide)

theorem initPages_nodup (paStart paEnd : Nat) :
    ((initPages paStart paEnd).map (fun p => p / PGSIZE)).Nodup := by
  unfold initPages
  rw [List.map_map]
  have he : ∀ i ∈ List.range ((paEnd - PGROUNDUP paStart) / PGSIZE),
      ((fun p => p / PGSIZE) ∘ fun i => PGROUNDUP paStart + i * PGSIZE) i =
        PGROUNDUP paStart / PGSIZE + i := by
    intro i _
    simp only [Function.comp]
    exact Nat.add_mul_div_right _ _ (show 0 < PGSIZE by decide)
  rw [List.map_congr_left he]
  exact (List.nodup_range _).map (fun a b hab => by omega)

theorem freerangeGo_KInv (kend physTop : Nat) (ps : List Nat) :
    ∀ s s', KInv s →
      (ps.map (fun p => p / PGSIZE)).Nodup →
      (∀ pa ∈ s.freelist, pa / PGSIZE ∉ ps.map (fun p => p / PGSIZE)) →
      freerangeGo kend physTop s ps = some s' → KInv s' := by
  induction ps with
  | nil =>
    intro s s' hinv _ _ hrun
    simp only [freerangeGo, Option.some_inj] at hrun
    rw [← hrun]
    exact hinv
  | cons p rest ih =>
    intro s s' hinv hnd hfr hrun
    obtain ⟨h1, h2, h3⟩ := hinv
    simp only [List.map_cons, List.nodup_cons] at hnd
    simp only [freerangeGo] at hrun
    cases hstep : freerangeStep kend physTop s p with
    | none =>
      rw [hstep] at hrun
      exact absurd hrun (by simp)
    | some s1 =>
      rw [hstep] at hrun
      by_cases hbad : p % PGSIZE ≠ 0 ∨ p < kend ∨ physTop ≤ p
      · rw [freerangeStep, kfree, if_pos hbad] at hstep
        exact absurd hstep (by simp)
      · rw [freerangeStep, kfree, if_neg hbad] at hstep
        have hr1 : ({ s with ref := updF s.ref (p / PGSIZE) 1 } : KState).ref (p / PGSIZE) = 1 :=
          updF_self _ _ _
        have hA : ¬ ({ s with ref := updF s.ref (p / PGSIZE) 1 } : KState).ref (p / PGSIZE) ≤ 0 := by
          rw [hr1]
          decide
        have hB : ¬ 0 < ({ s with ref := updF s.ref (p / PGSIZE) 1 } : KState).ref (p / PGSIZE) - 1 := by
          rw [hr1]
          decide
        rw [if_neg hA, if_neg hB] at hstep
        simp only [Option.some_inj] at hstep
        have hfresh : p / PGSIZE ∉ s.freelist.map (fun pa => pa / PGSIZE) := by
          intro hmem
          obtain ⟨q, hq, heq⟩ := List.mem_map.mp hmem
          apply hfr q hq
          simp only [List.map_cons, List.mem_cons]
          exact Or.inl heq
        refine ih s1 s' ⟨?_, ?_, ?_⟩ hnd.2 ?_ hrun
        · intro n
          rw [← hstep]
          show 0 ≤ updF (updF s.ref (p / PGSIZE) 1) (p / PGSIZE)
            (({ s with ref := updF s.ref (p / PGSIZE) 1 } : KState).ref (p / PGSIZE) - 1) n
          by_cases hn : n = p / PGSIZE
          · subst hn
            rw [updF_self, hr1]
            decide
          · rw [updF_ne _ _ _ _ hn, updF_ne _ _ _ _ hn]
            exact h1 n
        · intro pa hpa
          rw [← hstep] at hpa ⊢
          simp only [List.mem_cons] at hpa
          show updF (updF s.ref (p / PGSIZE) 1) (p / PGSIZE)
            (({ s with ref := updF s.ref (p / PGSIZE) 1 } : KState).ref (p / PGSIZE) - 1) (pa / PGSIZE) = 0
          rcases hpa with hpa | hpa
          · subst hpa
            rw [updF_self, hr1]
            decide
          · have hne : pa / PGSIZE ≠ p / PGSIZE := by
              intro he
              exact hfresh (he ▸ List.mem_map_of_mem (fun q => q / PGSIZE) hpa)
            rw [updF_ne _ _ _ _ hne, updF_ne _ _ _ _ hne]
            exact h2 pa hpa
        · rw [← hstep]
          show ((p :: s.freelist).map (fun pa => pa / PGSIZE)).Nodup
          simp only [List.map_cons, List.nodup_cons]
          exact ⟨hfresh, h3⟩
        · intro pa hpa
          rw [← hstep] at hpa
          simp only [List.mem_cons] at hpa
          rcases hpa with hpa | hpa
          · subst hpa
            exact hnd.1
          · intro hmem
            exact hfr pa hpa (by
              simp only [List.map_cons, List.mem_cons]
              exact Or.inr hmem)

theorem kinit_KInv (kend physTop : Nat) (s0 : KState)
    (h : kinit kend physTop = some s0) : KInv s0 := by
  refine freerangeGo_KInv kend physTop (initPages kend physTop)
    ⟨fun _ => 0, [], fun _ => 0⟩ s0 ⟨?_, ?_, ?_⟩ (initPages_nodup kend physTop) ?_ h
  · intro n
    show (0 : Int) ≤ 0
    decide
  · intro pa hpa
    exact absurd hpa (List.not_mem_nil pa)
  · exact List.nodup_nil
  · intro pa hpa
    exact absurd hpa (List.not_mem_nil pa)

/-- C2 (amended): starting from the initialized allocator, every sequence
of `kalloc`/`kfree`/`increref` operations in which `increref` is only
applied with a positive delta to a page with a positive count keeps every
reference count non-negative and keeps the count of every free-listed
frame at zero. (The unrestricted claim is refuted by
`frame_addref_counterexample`: `increref` is unchecked.) -/
theorem frame_refcount_invariant (kend physTop : Nat) (ops : List KOp) (s0 s' : KState)
    (hinit : kinit kend physTop = some s0)
    (hok : okKSeq kend physTop s0 ops = true)
    (hrun : runK kend physTop s0 ops = some s') :
    (∀ n, 0 ≤ s'.ref n) ∧ ∀ pa ∈ s'.freelist, s'.ref (pa / PGSIZE) = 0 :=
  have hinv := runK_KInv kend physTop ops s0 s'
    (kinit_KInv kend physTop s0 hinit) hok hrun
  ⟨hinv.1, hinv.2.1⟩

/-- Witness for `frame_refcount_invariant`: two pages, an
allocate / add-reference / free / free / allocate round trip. -/
theorem frame_refcount_invariant_witness :
    (∀ n, 0 ≤ ((runK 4096 12288 ((kinit 4096 12288).getD ⟨fun _ => 0, [], fun _ => 0⟩)
        [KOp.alloc, KOp.addref 8192 1, KOp.free 8192, KOp.free 8192, KOp.alloc]).getD
          ⟨fun _ => 0, [], fun _ => 0⟩).ref n) ∧
    ∀ pa ∈ ((runK 4096 12288 ((kinit 4096 12288).getD ⟨fun _ => 0, [], fun _ => 0⟩)
        [KOp.alloc, KOp.addref 8192 1, KOp.free 8192, KOp.free 8192, KOp.alloc]).getD
          ⟨fun _ => 0, [], fun _ => 0⟩).freelist,
      ((runK 4096 12288 ((kinit 4096 12288).getD ⟨fun _ => 0, [], fun _ => 0⟩)
        [KOp.alloc, KOp.addref 8192 1, KOp.free 8192, KOp.free 8192, KOp.alloc]).getD
          ⟨fun _ => 0, [], fun _ => 0⟩).ref (pa / PGSIZE) = 0 :=
  frame_refcount_invariant 4096 12288
    [KOp.alloc, KOp.addref 8192 1, KOp.free 8192, KOp.free 8192, KOp.alloc]
    ((kinit 4096 12288).getD ⟨fun _ => 0, [], fun _ => 0⟩) _ rfl (by decide) rfl

/-- C2 counterexample: from the initialized two-page allocator, a single
`add_reference(frame 4096, +1)` leaves frame 4096 on the free list with
reference count 1 — a frame present in the free list while its count is
nonzero, refuting the unrestricted claim. (A delta of -1 on the same
state likewise drives the count to -1.) -/
theorem frame_addref_counterexample :
    ((kinit 4096 12288).bind
        (fun s0 => runK 4096 12288 s0 [KOp.addref 4096 1])).map
      (fun s => (s.ref 1, s.freelist)) = some (1, [8192, 4096]) ∧
    (4096 : Nat) ∈ [8192, 4096] ∧ (1 : Int) ≠ 0 := by
  refine ⟨by decide, by decide, by decide⟩

/-- Number of hash buckets (shards) of the block cache; bio.c's NBUCKETS. -/
def NBUCKETS : Nat := 13

/-- Modelled from the spec: the fixed pool size NBUF comes from param.h,
which is not among the given sources; the spec only requires a fixed pool,
and the standard xv6 value 30 is used. No theorem depends on the exact
value beyond it being at least 2. -/
def NBUF : Nat := 30

/-- Modelled from the spec: buf.h is not among the given sources, so the
width of a buffer's last-used tick field is taken from the kernel's 32-bit
unsigned tick counter. The eviction scan in part_000 initializes its
running minimum with `int minTicks = ~0`; compared against an unsigned
32-bit tick that converts (C usual arithmetic conversions) to the all-ones
value 2^32 - 1, which is this sentinel. -/
def SENTICKS : Nat := 2 ^ 32 - 1

/-- One cached buffer: identity (device, block number), validity flag,
reference count (signed, per the spec's never-goes-negative invariant),
last-used tick, whether the sequential caller holds its sleep lock, and an
abstract payload. -/
structure Buf where
  dev : Nat
  blockno : Nat
  valid : Bool
  refcnt : Int
  ticks : Nat
  locked : Bool
  data : Nat
deriving DecidableEq

/-- The cache: one buffer list per bucket (the bucket sentinel nodes of
the C circular lists are structural and not represented; list order is
head-to-tail traversal order). -/
structure Cache where
  buckets : List (List Buf)
deriving DecidableEq

/-- Embeds `haskBlock` from the source (its name included). -/
def haskBlock (blockno : Nat) : Nat := blockno % NBUCKETS

/-- In-place update of the n-th element of a list (no-op when out of range). -/
def updateNth {α : Type} : List α → Nat → (α → α) → List α
  | [], _, _ => []
  | a :: l, 0, f => f a :: l
  | a :: l, n + 1, f => a :: updateNth l n f

/-- Removal of the n-th element of a list (no-op when out of range). -/
def removeNth {α : Type} : List α → Nat → List α
  | [], _ => []
  | _ :: l, 0 => l
  | a :: l, n + 1 => a :: removeNth l n

def bufAt (c : Cache) (i j : Nat) : Option Buf :=
  (c.buckets[i]?).bind (fun bk => bk[j]?)

def updateBufAt (c : Cache) (i j : Nat) (f : Buf → Buf) : Cache :=
  ⟨updateNth c.buckets i (fun bk => updateNth bk j f)⟩

def removeBufAt (c : Cache) (i j : Nat) : Cache :=
  ⟨updateNth c.buckets i (fun bk => removeNth bk j)⟩

def insertHeadAt (c : Cache) (i : Nat) (b : Buf) : Cache :=
  ⟨updateNth c.buckets i (fun bk => b :: bk)⟩

/-- The bucket scan of `bget`: position of the first buffer in the bucket
matching the requested (device, block number), if any. -/
def findBuf : List Buf → Nat → Nat → Option Nat
  | [], _, _ => none
  | b :: rest, dev, bn =>
      if b.dev = dev ∧ b.blockno = bn then some 0
      else (findBuf rest dev bn).map (fun j => j + 1)

/-- All buffers of the cache tagged with their (bucket, position), in the
order the eviction loop of `bget` visits them: bucket 0 head to tail, then
bucket 1, and so on. -/
def bucketIdx : List Buf → Nat → Nat → List ((Nat × Nat) × Buf)
  | [], _, _ => []
  | b :: rest, i, j => ((i, j), b) :: bucketIdx rest i (j + 1)

def bucketsIdx : List (List Buf) → Nat → List ((Nat × Nat) × Buf)
  | [], _ => []
  | bk :: rest, i => bucketIdx bk i 0 ++ bucketsIdx rest (i + 1)

def scanBufs (c : Cache) : List ((Nat × Nat) × Buf) := bucketsIdx c.buckets 0

/-- The running-minimum fold of the eviction scan in part_000's `bget`:
a buffer is a new candidate when its reference count is 0 and its tick is
strictly below the current minimum (initially the `~0` sentinel). -/
def victimAux : List ((Nat × Nat) × Buf) → Option (Nat × Nat) → Nat → Option (Nat × Nat)
  | [], acc, _ => acc
  | e :: rest, acc, m =>
      if e.2.refcnt = 0 ∧ e.2.ticks < m then victimAux rest (some e.1) e.2.ticks
      else victimAux rest acc m

def findVictim (c : Cache) : Option (Nat × Nat) := victimAux (scanBufs c) none SENTICKS

/-- Embeds `bget` from part_000 (sequentially: the pre-lock scan, and the
re-scan after taking the global coordination lock, see the same unchanged
state, so the three identical bucket lookups collapse to one `findBuf`).
On a hit the reference count is incremented and the sleep lock taken. On
a miss the scan selects the victim; no victim is a panic (`none`);
otherwise the victim is rebound (identity overwritten, valid cleared,
refcnt 1, tick stamped) in place when it already lives in the target
bucket, and otherwise unlinked from its bucket and pushed onto the head of
the target bucket. Returns the new cache and the buffer's location. -/
def bget (c : Cache) (now dev blockno : Nat) : Option (Cache × Nat × Nat) :=
  match findBuf (c.buckets.getD (haskBlock blockno) []) dev blockno with
  | some j =>
      some (updateBufAt c (haskBlock blockno) j
              (fun b => { b with refcnt := b.refcnt + 1, locked := true }),
            haskBlock blockno, j)
  | none =>
      match findVictim c with
      | none => none
      | some (minId, j) =>
          match bufAt c minId j with
          | none => none
          | some b =>
              if minId = haskBlock blockno then
                some (updateBufAt c minId j
                        (fun _ => { b with dev := dev, blockno := blockno, valid := false,
                                           refcnt := 1, ticks := now, locked := true }),
                      minId, j)
              else
                some (insertHeadAt (removeBufAt c minId j) (haskBlock blockno)
                        { b with dev := dev, blockno := blockno, valid := false,
                                 refcnt := 1, ticks := now, locked := true },
                      haskBlock blockno, 0)

/-- A device transfer performed by `virtio_disk_rw`. -/
structure Ev where
  dev : Nat
  blockno : Nat
  isWrite : Bool
deriving DecidableEq

/-- Embeds `bwrite`: panic unless the caller holds the buffer's sleep
lock, otherwise a synchronous device write of the payload. -/
def bwrite (b : Buf) : Option Ev :=
  if b.locked then some ⟨b.dev, b.blockno, true⟩ else none

/-- Embeds `brelse` from part_000 on one buffer: panic unless the sleep
lock is held; release it, decrement the reference count, and stamp the
last-used tick exactly when the new count is 0. The list-relinking of the
original xv6 brelse is commented out in part_000, so no list motion is
modelled. -/
def brelse (b : Buf) (now : Nat) : Option Buf :=
  if b.locked then
    some { b with locked := false, refcnt := b.refcnt - 1,
                  ticks := if b.refcnt - 1 = 0 then now else b.ticks }
  else none

/-- `brelse` applied to the buffer at a cache location (the C caller
passes the buffer pointer; the location stands for it). -/
def brelseAt (c : Cache) (i j now : Nat) : Option Cache :=
  match bufAt c i j with
  | none => none
  | some b => (brelse b now).map (fun b' => updateBufAt c i j (fun _ => b'))

/-- Embeds `bpin`: increment the reference count (under the shard lock). -/
def bpin (c : Cache) (i j : Nat) : Option Cache :=
  match bufAt c i j with
  | none => none
  | some _ => some (updateBufAt c i j (fun b => { b with refcnt := b.refcnt + 1 }))

/-- Embeds `bunpin`: decrement the reference count, with no check. -/
def bunpin (c : Cache) (i j : Nat) : Option Cache :=
  match bufAt c i j with
  | none => none
  | some _ => some (updateBufAt c i j (fun b => { b with refcnt := b.refcnt - 1 }))

/-- Embeds `bread`: `bget`, then a device read and valid := 1 only when
the returned buffer is not yet valid. Also returns the device transfers
performed. -/
def bread (c : Cache) (now dev blockno : Nat) : Option (Cache × (Nat × Nat) × List Ev) :=
  match bget c now dev blockno with
  | none => none
  | some (c1, i, j) =>
      match bufAt c1 i j with
      | none => none
      | some b =>
          if b.valid then some (c1, (i, j), [])
          else some (updateBufAt c1 i j (fun b0 => { b0 with valid := true }),
                     (i, j), [⟨dev, blockno, false⟩])

/-- The zero-initialized buffer of the static `bcache.buf` array. -/
def zeroBuf : Buf := ⟨0, 0, false, 0, 0, false, 0⟩

def emptyCache : Cache := ⟨List.replicate NBUCKETS []⟩

/-- One iteration of `binit`'s second loop: insert the buffer at the head
of the bucket selected by hashing its (zero-initialized) block number, and
stamp its tick with the boot-time tick value. -/
def binitStep (now : Nat) (c : Cache) (b : Buf) : Cache :=
  insertHeadAt c (haskBlock b.blockno) { b with ticks := now }

/-- Embeds `binit` for a pool of `n` buffers: all buckets start empty and
every statically zero-initialized buffer is inserted in array order. -/
def binit (now n : Nat) : Cache :=
  (List.replicate n zeroBuf).foldl (binitStep now) emptyCache

theorem updateNth_length {α : Type} (l : List α) (n : Nat) (f : α → α) :
    (updateNth l n f).length = l.length := by
  induction l generalizing n with
  | nil => rfl
  | cons a l ih =>
    cases n with
    | zero => rfl
    | succ n => simp [updateNth, ih]

theorem getElem?_updateNth {α : Type} (l : List α) (n : Nat) (f : α → α) (m : Nat) :
    (updateNth l n f)[m]? = if m = n then (l[n]?).map f else l[m]? := by
  induction l generalizing n m with
  | nil => simp [updateNth]
  | cons a l ih =>
    cases n with
    | zero =>
      cases m with
      | zero => simp [updateNth]
      | succ m => simp [updateNth]
    | succ n =>
      cases m with
      | zero => simp [updateNth]
      | succ m =>
        simp only [updateNth, List.getElem?_cons_succ, ih, Nat.succ_eq_add_one]
        by_cases h : m = n
        · simp [h]
        · simp [h]

theorem replicate_getElem? {α : Type} (n : Nat) (a : α) (m : Nat) (h : m < n) :
    (List.replicate n a)[m]? = some a := by
  induction n generalizing m with
  | zero => omega
  | succ n ih =>
    cases m with
    | zero => simp [List.replicate_succ]
    | succ m =>
      simp only [List.replicate_succ, List.getElem?_cons_succ]
      exact ih m (by omega)

theorem bufAt_updateBufAt (c : Cache) (i j : Nat) (f : Buf → Buf) (i' j' : Nat) :
    bufAt (updateBufAt c i j f) i' j' =
      if i' = i ∧ j' = j then (bufAt c i j).map f else bufAt c i' j' := by
  unfold bufAt updateBufAt
  simp only [getElem?_updateNth]
  by_cases hi : i' = i
  · subst hi
    simp only [if_pos rfl]
    cases hbk : c.buckets[i']? with
    | none => simp
    | some bk =>
      simp only [if_true, true_and, Option.map_some', Option.some_bind, getElem?_updateNth]
  · simp [hi]

theorem binit_fold (now : Nat) (n : Nat) :
    ∀ (bk0 : List Buf) (rest : List (List Buf)),
      (List.replicate n zeroBuf).foldl (binitStep now) ⟨bk0 :: rest⟩ =
        ⟨(List.replicate n { zeroBuf with ticks := now } ++ bk0) :: rest⟩ := by
  induction n with
  | zero =>
    intro bk0 rest
    simp
  | succ n ih =>
    intro bk0 rest
    rw [List.replicate_succ, List.foldl_cons]
    have hstep : binitStep now ⟨bk0 :: rest⟩ zeroBuf =
        ⟨({ zeroBuf with ticks := now } :: bk0) :: rest⟩ := rfl
    rw [hstep, ih]
    congr 1
    rw [List.replicate_succ', List.append_assoc]
    rfl

theorem binit_buckets (now n : Nat) :
    (binit now n).buckets =
      List.replicate n { zeroBuf with ticks := now } :: List.replicate (NBUCKETS - 1) [] := by
  have he : emptyCache = ⟨([] : List Buf) :: List.replicate (NBUCKETS - 1) []⟩ := rfl
  unfold binit
  rw [he, binit_fold]
  show (List.replicate n { zeroBuf with ticks := now } ++ []) ::
    List.replicate (NBUCKETS - 1) [] = _
  rw [List.append_nil]

/-- C6 (amended): `binit` inserts every buffer into the bucket obtained by
hashing its initial block number; every statically zero-initialized buffer
has block number 0, so all `n` buffers land in bucket `haskBlock 0 = 0`
and every other bucket stays empty — initialization does not distribute
the pool across the shards. -/
theorem binit_all_in_bucket_zero (now n : Nat) :
    haskBlock zeroBuf.blockno = 0 ∧
    (binit now n).buckets[haskBlock zeroBuf.blockno]? =
      some (List.replicate n { zeroBuf with ticks := now }) ∧
    ∀ i, 1 ≤ i → i < NBUCKETS → (binit now n).buckets[i]? = some [] := by
  refine ⟨rfl, ?_, ?_⟩
  · rw [binit_buckets]
    rfl
  · intro i h1 h2
    rw [binit_buckets]
    cases i with
    | zero => omega
    | succ i =>
      simp only [List.getElem?_cons_succ]
      exact replicate_getElem? _ _ _ (by
        have : NBUCKETS = 13 := rfl
        omega)

/-- Witness for `binit_all_in_bucket_zero` at the modelled pool size:
bucket 0 holds all 30 buffers, bucket 1 none. -/
theorem binit_all_in_bucket_zero_witness :
    haskBlock zeroBuf.blockno = 0 ∧
    (binit 0 NBUF).buckets[haskBlock zeroBuf.blockno]? =
      some (List.replicate NBUF { zeroBuf with ticks := 0 }) ∧
    (binit 0 NBUF).buckets[1]? = some [] :=
  ⟨(binit_all_in_bucket_zero 0 NBUF).1,
   (binit_all_in_bucket_zero 0 NBUF).2.1,
   (binit_all_in_bucket_zero 0 NBUF).2.2 1 (by decide) (by decide)⟩

/-- C6 counterexample: with the 30-buffer pool, initialization leaves
shard 1 empty and puts all 30 buffers into shard 0, so the buffers are not
distributed (round-robin or otherwise) across the 13 shards. -/
theorem binit_not_distributed_counterexample :
    (binit 0 NBUF).buckets[1]? = some [] ∧
    ((binit 0 NBUF).buckets[0]?).map List.length = some NBUF ∧
    13 ≤ NBUF := by
  refine ⟨by decide, by decide, by decide⟩

/-- C9: `bwrite` and `brelse` both fail fatally when the caller does not
hold the buffer's sleep lock; with the lock held, `bwrite` performs the
synchronous device write of the buffer's block and `brelse` decrements the
reference count and releases the lock. -/
theorem bwrite_brelse_require_lock (b : Buf) (now : Nat) :
    (b.locked = false → bwrite b = none ∧ brelse b now = none) ∧
    (b.locked = true →
      bwrite b = some ⟨b.dev, b.blockno, true⟩ ∧
      ∃ b', brelse b now = some b' ∧ b'.locked = false ∧ b'.refcnt = b.refcnt - 1) := by
  constructor
  · intro h
    constructor
    · simp [bwrite, h]
    · simp [brelse, h]
  · intro h
    refine ⟨by simp [bwrite, h], ?_⟩
    refine ⟨{ b with locked := false
                     refcnt := b.refcnt - 1
                     ticks := if b.refcnt - 1 = 0 then now else b.ticks }, ?_, rfl, rfl⟩
    simp [brelse, h]

/-- Witness for `bwrite_brelse_require_lock` on a locked and an unlocked
concrete buffer. -/
theorem bwrite_brelse_require_lock_witness :
    (bwrite ⟨1, 2, true, 3, 4, false, 5⟩ = none ∧
      brelse ⟨1, 2, true, 3, 4, false, 5⟩ 9 = none) ∧
    (bwrite ⟨1, 2, true, 3, 4, true, 5⟩ = some ⟨1, 2, true⟩ ∧
      ∃ b', brelse ⟨1, 2, true, 3, 4, true, 5⟩ 9 = some b' ∧
        b'.locked = false ∧ b'.refcnt = (⟨1, 2, true, 3, 4, true, 5⟩ : Buf).refcnt - 1) :=
  ⟨(bwrite_brelse_require_lock ⟨1, 2, true, 3, 4, false, 5⟩ 9).1 rfl,
   (bwrite_brelse_require_lock ⟨1, 2, true, 3, 4, true, 5⟩ 9).2 rfl⟩

/-- C5: releasing a locked buffer decrements its reference count, stamps
its last-used tick with the current tick exactly when the new count is 0,
leaves its identity, validity and payload untouched, leaves every other
buffer of the cache untouched, and does not move any buffer within or
between the shard lists (part_000's brelse performs no list surgery). -/
theorem brelse_effect (c : Cache) (i j now : Nat) (b : Buf)
    (hb : bufAt c i j = some b) (hl : b.locked = true) :
    ∃ (c' : Cache) (b' : Buf), brelseAt c i j now = some c' ∧
      bufAt c' i j = some b' ∧
      b'.refcnt = b.refcnt - 1 ∧
      b'.ticks = (if b.refcnt - 1 = 0 then now else b.ticks) ∧
      b'.dev = b.dev ∧ b'.blockno = b.blockno ∧ b'.valid = b.valid ∧
      b'.data = b.data ∧ b'.locked = false ∧
      (∀ i' j', (i', j') ≠ (i, j) → bufAt c' i' j' = bufAt c i' j') ∧
      ∀ i' : Nat, (c'.buckets[i']?).map List.length = (c.buckets[i']?).map List.length := by
  refine ⟨updateBufAt c i j (fun _ =>
      { b with locked := false
               refcnt := b.refcnt - 1
               ticks := if b.refcnt - 1 = 0 then now else b.ticks }),
    { b with locked := false
             refcnt := b.refcnt - 1
             ticks := if b.refcnt - 1 = 0 then now else b.ticks },
    ?_, ?_, rfl, rfl, rfl, rfl, rfl, rfl, rfl, ?_, ?_⟩
  · unfold brelseAt
    rw [hb]
    simp [brelse, hl]
  · rw [bufAt_updateBufAt]
    simp [hb]
  · intro i' j' hne
    rw [bufAt_updateBufAt]
    have hni : ¬(i' = i ∧ j' = j) := by
      intro hand
      exact hne (by rw [hand.1, hand.2])
    simp [hni]
  · intro i'
    show ((updateNth c.buckets i _)[i']?).map List.length = _
    rw [getElem?_updateNth]
    by_cases hi : i' = i
    · subst hi
      cases hbk : c.buckets[i']? with
      | none => simp
      | some bk => simp [updateNth_length]
    · simp [hi]

/-- Witness for `brelse_effect`: a one-buffer cache whose buffer is locked
with count 1; release unlocks it, sets the count to 0 and stamps tick 7. -/
theorem brelse_effect_witness :
    ∃ (c' : Cache) (b' : Buf),
      brelseAt ⟨[[⟨1, 2, true, 1, 4, true, 5⟩]]⟩ 0 0 7 = some c' ∧
      bufAt c' 0 0 = some b' ∧
      b'.refcnt = (⟨1, 2, true, 1, 4, true, 5⟩ : Buf).refcnt - 1 ∧
      b'.ticks = (if (⟨1, 2, true, 1, 4, true, 5⟩ : Buf).refcnt - 1 = 0 then 7
        else (⟨1, 2, true, 1, 4, true, 5⟩ : Buf).ticks) ∧
      b'.dev = (⟨1, 2, true, 1, 4, true, 5⟩ : Buf).dev ∧
      b'.blockno = (⟨1, 2, true, 1, 4, true, 5⟩ : Buf).blockno ∧
      b'.valid = (⟨1, 2, true, 1, 4, true, 5⟩ : Buf).valid ∧
      b'.data = (⟨1, 2, true, 1, 4, true, 5⟩ : Buf).data ∧
      b'.locked = false ∧
      (∀ i' j', (i', j') ≠ (0, 0) →
        bufAt c' i' j' = bufAt ⟨[[⟨1, 2, true, 1, 4, true, 5⟩]]⟩ i' j') ∧
      ∀ i' : Nat, (c'.buckets[i']?).map List.length =
        ((⟨[[⟨1, 2, true, 1, 4, true, 5⟩]]⟩ : Cache).buckets[i']?).map List.length :=
  brelse_effect ⟨[[⟨1, 2, true, 1, 4, true, 5⟩]]⟩ 0 0 7 ⟨1, 2, true, 1, 4, true, 5⟩ rfl rfl

theorem victimAux_cons_pos (e : (Nat × Nat) × Buf) (rest : List ((Nat × Nat) × Buf))
    (acc : Option (Nat × Nat)) (m : Nat) (h : e.2.refcnt = 0 ∧ e.2.ticks < m) :
    victimAux (e :: rest) acc m = victimAux rest (some e.1) e.2.ticks := by
  simp only [victimAux]
  rw [if_pos h]

theorem victimAux_cons_neg (e : (Nat × Nat) × Buf) (rest : List ((Nat × Nat) × Buf))
    (acc : Option (Nat × Nat)) (m : Nat) (h : ¬(e.2.refcnt = 0 ∧ e.2.ticks < m)) :
    victimAux (e :: rest) acc m = victimAux rest acc m := by
  simp only [victimAux]
  rw [if_neg h]

theorem victimAux_no_beater (l : List ((Nat × Nat) × Buf)) :
    ∀ (acc : Option (Nat × Nat)) (m : Nat),
      (∀ e ∈ l, ¬(e.2.refcnt = 0 ∧ e.2.ticks < m)) → victimAux l acc m = acc := by
  induction l with
  | nil => intro acc m _; rfl
  | cons e rest ih =>
    intro acc m hno
    rw [victimAux_cons_neg e rest acc m (hno e (List.mem_cons_self e rest))]
    exact ih acc m (fun e' he' => hno e' (List.mem_cons_of_mem e he'))

theorem victimAux_beater (l : List ((Nat × Nat) × Buf)) :
    ∀ (acc : Option (Nat × Nat)) (m : Nat),
      (∃ e ∈ l, e.2.refcnt = 0 ∧ e.2.ticks < m) →
      ∃ (n : Nat) (e : (Nat × Nat) × Buf), l[n]? = some e ∧
        victimAux l acc m = some e.1 ∧
        e.2.refcnt = 0 ∧ e.2.ticks < m ∧
        (∀ (k : Nat) (e' : (Nat × Nat) × Buf), l[k]? = some e' →
          e'.2.refcnt = 0 → e.2.ticks ≤ e'.2.ticks) ∧
        (∀ (k : Nat), k < n → ∀ (e' : (Nat × Nat) × Buf), l[k]? = some e' →
          e'.2.refcnt = 0 → e.2.ticks < e'.2.ticks) := by
  induction l with
  | nil =>
    intro acc m hex
    obtain ⟨e, he, _⟩ := hex
    exact absurd he (List.not_mem_nil e)
  | cons e rest ih =>
    intro acc m hex
    by_cases hcond : e.2.refcnt = 0 ∧ e.2.ticks < m
    · by_cases hrest : ∃ e' ∈ rest, e'.2.refcnt = 0 ∧ e'.2.ticks < e.2.ticks
      · obtain ⟨n', w, hget, hres, hrc, hlt, hmin, hfirst⟩ := ih (some e.1) e.2.ticks hrest
        refine ⟨n' + 1, w, ?_, ?_, hrc, by omega, ?_, ?_⟩
        · rw [List.getElem?_cons_succ]
          exact hget
        · rw [victimAux_cons_pos e rest acc m hcond]
          exact hres
        · intro k e' hk hrc'
          cases k with
          | zero =>
            simp only [List.getElem?_cons_zero, Option.some_inj] at hk
            rw [← hk]
            omega
          | succ k =>
            rw [List.getElem?_cons_succ] at hk
            exact hmin k e' hk hrc'
        · intro k hkn e' hk hrc'
          cases k with
          | zero =>
            simp only [List.getElem?_cons_zero, Option.some_inj] at hk
            rw [← hk]
            omega
          | succ k =>
            rw [List.getElem?_cons_succ] at hk
            exact hfirst k (by omega) e' hk hrc'
      · push_neg at hrest
        refine ⟨0, e, List.getElem?_cons_zero, ?_, hcond.1, hcond.2, ?_, ?_⟩
        · rw [victimAux_cons_pos e rest acc m hcond]
          refine victimAux_no_beater rest (some e.1) e.2.ticks ?_
          intro e' he' hand
          have := hrest e' he' hand.1
          omega
        · intro k e' hk hrc'
          cases k with
          | zero =>
            simp only [List.getElem?_cons_zero, Option.some_inj] at hk
            rw [← hk]
          | succ k =>
            rw [List.getElem?_cons_succ] at hk
            exact hrest e' (List.getElem?_mem hk) hrc'
        · intro k hkn
          omega
    · have hrest : ∃ e' ∈ rest, e'.2.refcnt = 0 ∧ e'.2.ticks < m := by
        obtain ⟨w, hw, hprop⟩ := hex
        rcases List.mem_cons.mp hw with hw | hw
        · exact absurd (hw ▸ hprop) hcond
        · exact ⟨w, hw, hprop⟩
      obtain ⟨n', w, hget, hres, hrc, hlt, hmin, hfirst⟩ := ih acc m hrest
      refine ⟨n' + 1, w, ?_, ?_, hrc, hlt, ?_, ?_⟩
      · rw [List.getElem?_cons_succ]
        exact hget
      · rw [victimAux_cons_neg e rest acc m hcond]
        exact hres
      · intro k e' hk hrc'
        cases k with
        | zero =>
          simp only [List.getElem?_cons_zero, Option.some_inj] at hk
          rw [← hk] at hrc' ⊢
          have hnl : ¬ e.2.ticks < m := fun hl => hcond ⟨hrc', hl⟩
          omega
        | succ k =>
          rw [List.getElem?_cons_succ] at hk
          exact hmin k e' hk hrc'
      · intro k hkn e' hk hrc'
        cases k with
        | zero =>
          simp only [List.getElem?_cons_zero, Option.some_inj] at hk
          rw [← hk] at hrc' ⊢
          have hnl : ¬ e.2.ticks < m := fun hl => hcond ⟨hrc', hl⟩
          omega
        | succ k =>
          rw [List.getElem?_cons_succ] at hk
          exact hfirst k (by omega) e' hk hrc'

theorem mem_bucketIdx (bk : List Buf) (i : Nat) :
    ∀ (j0 : Nat) (p : Nat × Nat) (b : Buf),
      (p, b) ∈ bucketIdx bk i j0 ↔ ∃ d, bk[d]? = some b ∧ p = (i, j0 + d) := by
  induction bk with
  | nil =>
    intro j0 p b
    simp [bucketIdx]
  | cons hd tl ih =>
    intro j0 p b
    simp only [bucketIdx, List.mem_cons, ih (j0 + 1), Prod.mk.injEq]
    constructor
    · intro h
      rcases h with ⟨hp, hb⟩ | ⟨d, hd', hp⟩
      · refine ⟨0, ?_, ?_⟩
        · rw [List.getElem?_cons_zero, hb]
        · rw [hp]
          simp
      · refine ⟨d + 1, ?_, ?_⟩
        · rw [List.getElem?_cons_succ]
          exact hd'
        · rw [hp]
          congr 1
          omega
    · intro h
      obtain ⟨d, hd', hp⟩ := h
      cases d with
      | zero =>
        left
        rw [List.getElem?_cons_zero, Option.some_inj] at hd'
        constructor
        · rw [hp]
          simp
        · exact hd'.symm
      | succ d =>
        right
        rw [List.getElem?_cons_succ] at hd'
        refine ⟨d, hd', ?_⟩
        rw [hp]
        congr 1
        omega

theorem mem_bucketsIdx (bs : List (List Buf)) :
    ∀ (i0 : Nat) (x : (Nat × Nat) × Buf),
      x ∈ bucketsIdx bs i0 ↔
        ∃ d bk, bs[d]? = some bk ∧ x ∈ bucketIdx bk (i0 + d) 0 := by
  induction bs with
  | nil =>
    intro i0 x
    simp [bucketsIdx]
  | cons bk rest ih =>
    intro i0 x
    unfold bucketsIdx
    rw [List.mem_append, ih (i0 + 1)]
    constructor
    · intro h
      rcases h with h | ⟨d, bk', hd, hx⟩
      · refine ⟨0, bk, List.getElem?_cons_zero, ?_⟩
        rw [Nat.add_zero]
        exact h
      · refine ⟨d + 1, bk', ?_, ?_⟩
        · rw [List.getElem?_cons_succ]
          exact hd
        · have harith : i0 + (d + 1) = i0 + 1 + d := by omega
          rw [harith]
          exact hx
    · intro h
      obtain ⟨d, bk', hd, hx⟩ := h
      cases d with
      | zero =>
        left
        rw [List.getElem?_cons_zero, Option.some_inj] at hd
        rw [hd]
        simpa using hx
      | succ d =>
        right
        rw [List.getElem?_cons_succ] at hd
        refine ⟨d, bk', hd, ?_⟩
        have harith : i0 + 1 + d = i0 + (d + 1) := by omega
        rw [harith]
        exact hx

theorem scanBufs_sound (c : Cache) (p : Nat × Nat) (b : Buf) (hx : (p, b) ∈ scanBufs c) :
    bufAt c p.1 p.2 = some b := by
  unfold scanBufs at hx
  obtain ⟨d, bk, hd, hbk⟩ := (mem_bucketsIdx c.buckets 0 (p, b)).mp hx
  obtain ⟨j, hj, hp⟩ := (mem_bucketIdx bk (0 + d) 0 p b).mp hbk
  unfold bufAt
  rw [hp]
  simp only [Nat.zero_add]
  rw [hd]
  simpa using hj

theorem scanBufs_complete (c : Cache) (i j : Nat) (b : Buf) (hb : bufAt c i j = some b) :
    ((i, j), b) ∈ scanBufs c := by
  unfold bufAt at hb
  cases hbk : c.buckets[i]? with
  | none =>
    rw [hbk] at hb
    exact absurd hb (by simp)
  | some bk =>
    rw [hbk] at hb
    simp only [Option.some_bind] at hb
    unfold scanBufs
    rw [mem_bucketsIdx]
    refine ⟨i, bk, hbk, ?_⟩
    rw [mem_bucketIdx]
    exact ⟨j, hb, by simp⟩

theorem bget_hit (c : Cache) (now dev blockno j : Nat)
    (hfind : findBuf (c.buckets.getD (haskBlock blockno) []) dev blockno = some j) :
    bget c now dev blockno =
      some (updateBufAt c (haskBlock blockno) j
              (fun b => { b with refcnt := b.refcnt + 1, locked := true }),
            haskBlock blockno, j) := by
  unfold bget
  rw [hfind]

theorem bget_miss_evict (c : Cache) (now dev blockno minId mj : Nat) (v : Buf)
    (hmiss : findBuf (c.buckets.getD (haskBlock blockno) []) dev blockno = none)
    (hv : findVictim c = some (minId, mj))
    (hb : bufAt c minId mj = some v) :
    bget c now dev blockno =
      if minId = haskBlock blockno then
        some (updateBufAt c minId mj
                (fun _ => { v with dev := dev, blockno := blockno, valid := false,
                                   refcnt := 1, ticks := now, locked := true }),
              minId, mj)
      else
        some (insertHeadAt (removeBufAt c minId mj) (haskBlock blockno)
                { v with dev := dev, blockno := blockno, valid := false,
                         refcnt := 1, ticks := now, locked := true },
              haskBlock blockno, 0) := by
  simp only [bget, hmiss, hv, hb]

/-- C8: when the requested block misses in its bucket and no buffer in the
whole pool has reference count 0, `bget` fails fatally (the pool-exhaustion
panic); it returns nothing at all — in particular it never returns a
referenced buffer, and it performs no retry. -/
theorem bget_exhaustion_panics (c : Cache) (now dev blockno : Nat)
    (hmiss : findBuf (c.buckets.getD (haskBlock blockno) []) dev blockno = none)
    (hnofree : ∀ bk ∈ c.buckets, ∀ b ∈ bk, b.refcnt ≠ 0) :
    bget c now dev blockno = none := by
  have hv : findVictim c = none := by
    unfold findVictim
    refine victimAux_no_beater (scanBufs c) none SENTICKS ?_
    intro e he hand
    have hsound := scanBufs_sound c e.1 e.2 (by rw [Prod.mk.eta]; exact he)
    unfold bufAt at hsound
    cases hbk : c.buckets[e.1.1]? with
    | none =>
      rw [hbk] at hsound
      exact absurd hsound (by simp)
    | some bk =>
      rw [hbk] at hsound
      simp only [Option.some_bind] at hsound
      exact hnofree bk (List.getElem?_mem hbk) e.2 (List.getElem?_mem hsound) hand.1
  unfold bget
  rw [hmiss, hv]

/-- Witness for `bget_exhaustion_panics`: a pool whose only buffer is
referenced; a lookup of an uncached block panics. -/
theorem bget_exhaustion_panics_witness :
    bget ⟨[[⟨0, 0, false, 1, 0, false, 0⟩]]⟩ 5 1 1 = none :=
  bget_exhaustion_panics ⟨[[⟨0, 0, false, 1, 0, false, 0⟩]]⟩ 5 1 1 rfl (by decide)

/-- C1 (amended): on a cache miss, whenever some buffer in the pool has
reference count 0 and a last-used tick strictly below the all-ones scan
sentinel (2^32 - 1, the value `int minTicks = ~0` takes against the 32-bit
unsigned tick), the eviction scan selects a buffer with reference count 0
whose tick is a minimum over every unreferenced buffer in the entire pool
(all shards, not one), earliest in scan order among equals (every earlier
unreferenced buffer in scan order has a strictly larger tick), and `bget`
rebinds exactly that buffer and returns successfully. A reference-count-0
buffer whose tick equals the sentinel can never be selected
(`bget_sentinel_tick_counterexample`). -/
theorem bget_selects_global_lru (c : Cache) (now dev blockno : Nat)
    (hmiss : findBuf (c.buckets.getD (haskBlock blockno) []) dev blockno = none)
    (hex : ∃ (i j : Nat) (b : Buf), bufAt c i j = some b ∧ b.refcnt = 0 ∧ b.ticks < SENTICKS) :
    ∃ (n : Nat) (loc : Nat × Nat) (v : Buf),
      (scanBufs c)[n]? = some (loc, v) ∧
      findVictim c = some loc ∧
      bufAt c loc.1 loc.2 = some v ∧
      v.refcnt = 0 ∧ v.ticks < SENTICKS ∧
      (∀ (i' j' : Nat) (b' : Buf), bufAt c i' j' = some b' → b'.refcnt = 0 →
        v.ticks ≤ b'.ticks) ∧
      (∀ (k : Nat), k < n → ∀ (loc' : Nat × Nat) (b' : Buf),
        (scanBufs c)[k]? = some (loc', b') → b'.refcnt = 0 → v.ticks < b'.ticks) ∧
      ∃ (c' : Cache) (r : Nat × Nat), bget c now dev blockno = some (c', r.1, r.2) := by
  obtain ⟨i, j, b, hb, hrc, hlt⟩ := hex
  have hbeat : ∃ e ∈ scanBufs c, e.2.refcnt = 0 ∧ e.2.ticks < SENTICKS :=
    ⟨((i, j), b), scanBufs_complete c i j b hb, hrc, hlt⟩
  obtain ⟨n, e, hget, hres, hrc', hlt', hmin, hfirst⟩ :=
    victimAux_beater (scanBufs c) none SENTICKS hbeat
  obtain ⟨⟨minId, mj⟩, v⟩ := e
  have hsound : bufAt c minId mj = some v :=
    scanBufs_sound c (minId, mj) v (List.getElem?_mem hget)
  have hv : findVictim c = some (minId, mj) := hres
  refine ⟨n, (minId, mj), v, hget, hv, hsound, hrc', hlt', ?_, ?_, ?_⟩
  · intro i' j' b' hb' hrc''
    obtain ⟨k, hk⟩ := List.getElem?_of_mem (scanBufs_complete c i' j' b' hb')
    exact hmin k ((i', j'), b') hk hrc''
  · intro k hkn loc' b' hk hrc''
    exact hfirst k hkn (loc', b') hk hrc''
  · rw [bget_miss_evict c now dev blockno minId mj v hmiss hv hsound]
    by_cases hsame : minId = haskBlock blockno
    · rw [if_pos hsame]
      exact ⟨_, (minId, mj), rfl⟩
    · rw [if_neg hsame]
      exact ⟨_, (haskBlock blockno, 0), rfl⟩

/-- Witness for `bget_selects_global_lru`: two buckets, one unreferenced
buffer with tick 5; a lookup of uncached block 1 selects it. -/
theorem bget_selects_global_lru_witness :
    ∃ (n : Nat) (loc : Nat × Nat) (v : Buf),
      (scanBufs ⟨[[⟨2, 3, true, 0, 5, false, 9⟩], []]⟩)[n]? = some (loc, v) ∧
      findVictim ⟨[[⟨2, 3, true, 0, 5, false, 9⟩], []]⟩ = some loc ∧
      bufAt ⟨[[⟨2, 3, true, 0, 5, false, 9⟩], []]⟩ loc.1 loc.2 = some v ∧
      v.refcnt = 0 ∧ v.ticks < SENTICKS ∧
      (∀ (i' j' : Nat) (b' : Buf),
        bufAt ⟨[[⟨2, 3, true, 0, 5, false, 9⟩], []]⟩ i' j' = some b' → b'.refcnt = 0 →
        v.ticks ≤ b'.ticks) ∧
      (∀ (k : Nat), k < n → ∀ (loc' : Nat × Nat) (b' : Buf),
        (scanBufs ⟨[[⟨2, 3, true, 0, 5, false, 9⟩], []]⟩)[k]? = some (loc', b') →
        b'.refcnt = 0 → v.ticks < b'.ticks) ∧
      ∃ (c' : Cache) (r : Nat × Nat),
        bget ⟨[[⟨2, 3, true, 0, 5, false, 9⟩], []]⟩ 7 1 1 = some (c', r.1, r.2) :=
  bget_selects_global_lru ⟨[[⟨2, 3, true, 0, 5, false, 9⟩], []]⟩ 7 1 1 rfl
    ⟨0, 0, ⟨2, 3, true, 0, 5, false, 9⟩, rfl, rfl, by decide⟩

/-- C1 counterexample: a pool whose only buffer is unreferenced but whose
last-used tick equals the all-ones sentinel 2^32 - 1 (`~0`, attainable for
the 32-bit unsigned tick counter). The claim requires a miss to select
this buffer — it is the unique refcount-0 buffer, hence the minimum — but
the scan's strict comparison `b->ticks < minTicks` fails against the
sentinel, so `bget` panics instead of selecting it. -/
theorem bget_sentinel_tick_counterexample :
    bufAt ⟨[[⟨0, 0, false, 0, 4294967295, false, 0⟩]]⟩ 0 0 =
      some ⟨0, 0, false, 0, 4294967295, false, 0⟩ ∧
    (⟨0, 0, false, 0, 4294967295, false, 0⟩ : Buf).refcnt = 0 ∧
    findBuf ((⟨[[⟨0, 0, false, 0, 4294967295, false, 0⟩]]⟩ : Cache).buckets.getD
      (haskBlock 1) []) 1 1 = none ∧
    bget ⟨[[⟨0, 0, false, 0, 4294967295, false, 0⟩]]⟩ 7 1 1 = none := by
  refine ⟨rfl, rfl, rfl, by decide⟩

theorem mem_updateNth {α : Type} (l : List α) (n : Nat) (f : α → α) (x : α)
    (hx : x ∈ updateNth l n f) : x ∈ l ∨ ∃ a, l[n]? = some a ∧ x = f a := by
  induction l generalizing n with
  | nil => exact absurd hx (List.not_mem_nil x)
  | cons a l ih =>
    cases n with
    | zero =>
      rcases List.mem_cons.mp hx with h | h
      · exact Or.inr ⟨a, List.getElem?_cons_zero, h⟩
      · exact Or.inl (List.mem_cons_of_mem a h)
    | succ n =>
      rcases List.mem_cons.mp hx with h | h
      · exact Or.inl (h ▸ List.mem_cons_self a l)
      · rcases ih n h with h' | ⟨a', ha', he⟩
        · exact Or.inl (List.mem_cons_of_mem a h')
        · exact Or.inr ⟨a', by rw [List.getElem?_cons_succ]; exact ha', he⟩

theorem mem_removeNth {α : Type} (l : List α) (n : Nat) (x : α)
    (hx : x ∈ removeNth l n) : x ∈ l := by
  induction l generalizing n with
  | nil => exact absurd hx (List.not_mem_nil x)
  | cons a l ih =>
    cases n with
    | zero => exact List.mem_cons_of_mem a hx
    | succ n =>
      rcases List.mem_cons.mp hx with h | h
      · exact h ▸ List.mem_cons_self a l
      · exact List.mem_cons_of_mem a (ih n h)

/-- The invariant of C7: every buffer of every shard has a non-negative
reference count. -/
def AllNonneg (c : Cache) : Prop := ∀ bk ∈ c.buckets, ∀ b ∈ bk, 0 ≤ b.refcnt

theorem AllNonneg_bufAt (c : Cache) (i j : Nat) (b : Buf)
    (hinv : AllNonneg c) (hb : bufAt c i j = some b) : 0 ≤ b.refcnt := by
  unfold bufAt at hb
  cases hbk : c.buckets[i]? with
  | none =>
    rw [hbk] at hb
    exact absurd hb (by simp)
  | some bk =>
    rw [hbk] at hb
    simp only [Option.some_bind] at hb
    exact hinv bk (List.getElem?_mem hbk) b (List.getElem?_mem hb)

theorem AllNonneg_updateBufAt (c : Cache) (i j : Nat) (f : Buf → Buf)
    (hinv : AllNonneg c) (hf : ∀ a, bufAt c i j = some a → 0 ≤ (f a).refcnt) :
    AllNonneg (updateBufAt c i j f) := by
  intro bk' hbk' b' hb'
  rcases mem_updateNth _ _ _ _ hbk' with h | ⟨bk0, hbk0, he⟩
  · exact hinv bk' h b' hb'
  · rw [he] at hb'
    rcases mem_updateNth _ _ _ _ hb' with h | ⟨a, ha, he2⟩
    · exact hinv bk0 (List.getElem?_mem hbk0) b' h
    · rw [he2]
      apply hf
      unfold bufAt
      rw [hbk0]
      simpa using ha

theorem AllNonneg_removeBufAt (c : Cache) (i j : Nat) (hinv : AllNonneg c) :
    AllNonneg (removeBufAt c i j) := by
  intro bk' hbk' b' hb'
  rcases mem_updateNth _ _ _ _ hbk' with h | ⟨bk0, hbk0, he⟩
  · exact hinv bk' h b' hb'
  · rw [he] at hb'
    exact hinv bk0 (List.getElem?_mem hbk0) b' (mem_removeNth _ _ _ hb')

theorem AllNonneg_insertHeadAt (c : Cache) (i : Nat) (b : Buf)
    (hinv : AllNonneg c) (hb : 0 ≤ b.refcnt) :
    AllNonneg (insertHeadAt c i b) := by
  intro bk' hbk' b' hb'
  rcases mem_updateNth _ _ _ _ hbk' with h | ⟨bk0, hbk0, he⟩
  · exact hinv bk' h b' hb'
  · rw [he] at hb'
    rcases List.mem_cons.mp hb' with h | h
    · rw [h]
      exact hb
    · exact hinv bk0 (List.getElem?_mem hbk0) b' h

/-- The block-cache operations of the claim: acquire, release, pin, unpin. -/
inductive BOp where
  | acq : Nat → Nat → Nat → BOp
  | rel : Nat → Nat → Nat → BOp
  | pin : Nat → Nat → BOp
  | unpin : Nat → Nat → BOp
deriving DecidableEq

/-- One block-cache operation: `acq dev blockno now` is `bget`, `rel` is
`brelse` on the buffer at a location, `pin`/`unpin` are `bpin`/`bunpin`. -/
def bstep (c : Cache) : BOp → Option Cache
  | .acq dev blockno now => (bget c now dev blockno).map (fun q => q.1)
  | .rel i j now => brelseAt c i j now
  | .pin i j => bpin c i j
  | .unpin i j => bunpin c i j

def runB (c : Cache) : List BOp → Option Cache
  | [] => some c
  | op :: rest =>
      match bstep c op with
      | none => none
      | some c' => runB c' rest

/-- Guard of the amended C7: the decrementing operations (release, unpin)
are applied only to a buffer whose reference count is at least 1. -/
def okBOp (c : Cache) : BOp → Bool
  | .rel i j _ =>
      match bufAt c i j with
      | some b => decide (1 ≤ b.refcnt)
      | none => true
  | .unpin i j =>
      match bufAt c i j with
      | some b => decide (1 ≤ b.refcnt)
      | none => true
  | _ => true

def okBSeq (c : Cache) : List BOp → Bool
  | [] => true
  | op :: rest =>
      okBOp c op &&
        (match bstep c op with
         | none => true
         | some c' => okBSeq c' rest)

theorem bstep_AllNonneg (c c' : Cache) (op : BOp)
    (hinv : AllNonneg c) (hok : okBOp c op = true) (hstep : bstep c op = some c') :
    AllNonneg c' := by
  cases op with
  | acq dev blockno now =>
    simp only [bstep] at hstep
    cases hfind : findBuf (c.buckets.getD (haskBlock blockno) []) dev blockno with
    | some j =>
      rw [bget_hit c now dev blockno j hfind] at hstep
      simp only [Option.map_some', Option.some_inj] at hstep
      rw [← hstep]
      refine AllNonneg_updateBufAt c _ j _ hinv ?_
      intro a ha
      have := AllNonneg_bufAt c _ j a hinv ha
      simp only
      omega
    | none =>
      cases hvic : findVictim c with
      | none =>
        have : bget c now dev blockno = none := by
          simp only [bget, hfind, hvic]
        rw [this] at hstep
        exact absurd hstep (by simp)
      | some loc =>
        obtain ⟨minId, mj⟩ := loc
        cases hb : bufAt c minId mj with
        | none =>
          have : bget c now dev blockno = none := by
            simp only [bget, hfind, hvic, hb]
          rw [this] at hstep
          exact absurd hstep (by simp)
        | some v =>
          rw [bget_miss_evict c now dev blockno minId mj v hfind hvic hb] at hstep
          by_cases hsame : minId = haskBlock blockno
          · rw [if_pos hsame] at hstep
            simp only [Option.map_some', Option.some_inj] at hstep
            rw [← hstep]
            refine AllNonneg_updateBufAt c minId mj _ hinv ?_
            intro a _
            simp only
            decide
          · rw [if_neg hsame] at hstep
            simp only [Option.map_some', Option.some_inj] at hstep
            rw [← hstep]
            refine AllNonneg_insertHeadAt _ _ _
              (AllNonneg_removeBufAt c minId mj hinv) ?_
            simp only
            decide
  | rel i j now =>
    simp only [bstep, brelseAt] at hstep
    cases hb : bufAt c i j with
    | none =>
      rw [hb] at hstep
      exact absurd hstep (by simp)
    | some b =>
      rw [hb] at hstep
      simp only [okBOp, hb] at hok
      have hge : 1 ≤ b.refcnt := of_decide_eq_true hok
      by_cases hl : b.locked
      · simp only [brelse, if_pos hl, Option.map_some', Option.some_inj] at hstep
        rw [← hstep]
        refine AllNonneg_updateBufAt c i j _ hinv ?_
        intro a _
        simp only
        omega
      · simp only [brelse, if_neg hl] at hstep
        exact absurd hstep (by simp)
  | pin i j =>
    simp only [bstep, bpin] at hstep
    cases hb : bufAt c i j with
    | none =>
      rw [hb] at hstep
      exact absurd hstep (by simp)
    | some b =>
      rw [hb] at hstep
      simp only [Option.some_inj] at hstep
      rw [← hstep]
      refine AllNonneg_updateBufAt c i j _ hinv ?_
      intro a ha
      have := AllNonneg_bufAt c i j a hinv ha
      simp only
      omega
  | unpin i j =>
    simp only [bstep, bunpin] at hstep
    cases hb : bufAt c i j with
    | none =>
      rw [hb] at hstep
      exact absurd hstep (by simp)
    | some b =>
      rw [hb] at hstep
      simp only [Option.some_inj] at hstep
      simp only [okBOp, hb] at hok
      have hge : 1 ≤ b.refcnt := of_decide_eq_true hok
      rw [← hstep]
      refine AllNonneg_updateBufAt c i j _ hinv ?_
      intro a ha
      have he : a = b := by
        rw [hb] at ha
        exact (Option.some_inj.mp ha).symm
      rw [he]
      simp only
      omega

theorem runB_AllNonneg (ops : List BOp) :
    ∀ c c', AllNonneg c → okBSeq c ops = true → runB c ops = some c' → AllNonneg c' := by
  induction ops with
  | nil =>
    intro c c' hinv _ hrun
    simp only [runB, Option.some_inj] at hrun
    rw [← hrun]
    exact hinv
  | cons op rest ih =>
    intro c c' hinv hok hrun
    simp only [okBSeq, Bool.and_eq_true] at hok
    simp only [runB] at hrun
    cases hstep : bstep c op with
    | none =>
      rw [hstep] at hrun
      exact absurd hrun (by simp)
    | some c1 =>
      rw [hstep] at hrun
      have hok2 := hok.2
      rw [hstep] at hok2
      exact ih c1 c' (bstep_AllNonneg c c1 op hinv hok.1 hstep) hok2 hrun

theorem AllNonneg_binit (now n : Nat) : AllNonneg (binit now n) := by
  intro bk hbk b hb
  rw [binit_buckets] at hbk
  rcases List.mem_cons.mp hbk with h | h
  · rw [h] at hb
    have := List.eq_of_mem_replicate hb
    rw [this]
    exact Int.le_refl 0
  · have := List.eq_of_mem_replicate h
    rw [this] at hb
    exact absurd hb (List.not_mem_nil b)

/-- C7 (amended): starting from the initialized cache, every sequence of
acquire/release/pin/unpin operations in which each release and each unpin
is applied only to a buffer whose reference count is at least 1 keeps
every buffer's reference count non-negative. (The unrestricted claim is
refuted by `bcache_unpin_counterexample`: `bunpin` decrements with no
check.) -/
theorem bcache_refcount_invariant (now n : Nat) (ops : List BOp) (c' : Cache)
    (hok : okBSeq (binit now n) ops = true)
    (hrun : runB (binit now n) ops = some c') :
    ∀ bk ∈ c'.buckets, ∀ b ∈ bk, 0 ≤ b.refcnt :=
  runB_AllNonneg ops (binit now n) c' (AllNonneg_binit now n) hok hrun

/-- Witness for `bcache_refcount_invariant`: pin then unpin the first
buffer of the freshly initialized two-buffer cache; its count is back to 0
and in particular non-negative. -/
theorem bcache_refcount_invariant_witness :
    ∃ b : Buf, bufAt ((runB (binit 0 2) [BOp.pin 0 0, BOp.unpin 0 0]).getD ⟨[]⟩) 0 0 = some b ∧
      0 ≤ b.refcnt :=
  ⟨⟨0, 0, false, 0, 0, false, 0⟩, by decide,
   bcache_refcount_invariant 0 2 [BOp.pin 0 0, BOp.unpin 0 0]
     ((runB (binit 0 2) [BOp.pin 0 0, BOp.unpin 0 0]).getD ⟨[]⟩) (by decide) rfl
     [⟨0, 0, false, 0, 0, false, 0⟩, ⟨0, 0, false, 0, 0, false, 0⟩] (by decide)
     ⟨0, 0, false, 0, 0, false, 0⟩ (by decide)⟩

/-- C7 counterexample: from the freshly initialized cache every reference
count is 0, and a single `bunpin` of the first buffer drives its count to
-1, refuting the unrestricted claim. -/
theorem bcache_unpin_counterexample :
    ((runB (binit 0 NBUF) [BOp.unpin 0 0]).map
      (fun c => (bufAt c 0 0).map Buf.refcnt)) = some (some (-1)) ∧
    (-1 : Int) < 0 := by
  refine ⟨by decide, by decide⟩

theorem bufAt_eq_getD (c : Cache) (i j : Nat) :
    bufAt c i j = (c.buckets.getD i [])[j]? := by
  unfold bufAt
  rw [List.getD_eq_getElem?_getD]
  cases c.buckets[i]? <;> simp

theorem getD_updateBufAt_self (c : Cache) (i j : Nat) (f : Buf → Buf) :
    (updateBufAt c i j f).buckets.getD i [] = updateNth (c.buckets.getD i []) j f := by
  show (updateNth c.buckets i (fun bk => updateNth bk j f)).getD i [] = _
  rw [List.getD_eq_getElem?_getD, List.getD_eq_getElem?_getD, getElem?_updateNth]
  rw [if_pos rfl]
  cases c.buckets[i]? with
  | none => rfl
  | some bk => rfl

theorem findBuf_some (l : List Buf) (dev bn : Nat) :
    ∀ j, findBuf l dev bn = some j →
      ∃ b, l[j]? = some b ∧ b.dev = dev ∧ b.blockno = bn := by
  induction l with
  | nil =>
    intro j h
    exact absurd h (by simp [findBuf])
  | cons b rest ih =>
    intro j h
    unfold findBuf at h
    by_cases hc : b.dev = dev ∧ b.blockno = bn
    · rw [if_pos hc] at h
      have hj : j = 0 := (Option.some_inj.mp h).symm
      subst hj
      exact ⟨b, List.getElem?_cons_zero, hc.1, hc.2⟩
    · rw [if_neg hc] at h
      cases hr : findBuf rest dev bn with
      | none =>
        rw [hr] at h
        exact absurd h (by simp)
      | some j' =>
        rw [hr] at h
        simp only [Option.map_some', Option.some_inj] at h
        obtain ⟨b', hb', hd, hbn⟩ := ih j' hr
        refine ⟨b', ?_, hd, hbn⟩
        rw [← h, List.getElem?_cons_succ]
        exact hb'

theorem findBuf_updateNth_at (l : List Buf) (dev bn : Nat) :
    ∀ (n : Nat) (f : Buf → Buf),
      (∀ a, l[n]? = some a → (f a).dev = a.dev ∧ (f a).blockno = a.blockno) →
      findBuf (updateNth l n f) dev bn = findBuf l dev bn := by
  induction l with
  | nil => intro n f _; rfl
  | cons b rest ih =>
    intro n f hf
    cases n with
    | zero =>
      show findBuf (f b :: rest) dev bn = findBuf (b :: rest) dev bn
      have hid := hf b List.getElem?_cons_zero
      simp only [findBuf, hid.1, hid.2]
    | succ n =>
      show findBuf (b :: updateNth rest n f) dev bn = findBuf (b :: rest) dev bn
      simp only [findBuf]
      rw [ih n f (fun a ha => hf a (by rw [List.getElem?_cons_succ]; exact ha))]

theorem findBuf_set_match (l : List Buf) (dev bn : Nat) :
    ∀ (n : Nat) (a b' : Buf),
      findBuf l dev bn = none → l[n]? = some a →
      b'.dev = dev → b'.blockno = bn →
      findBuf (updateNth l n (fun _ => b')) dev bn = some n := by
  induction l with
  | nil =>
    intro n a b' _ ha
    exact absurd ha (by simp)
  | cons b rest ih =>
    intro n a b' hnone ha hd hbn
    have hsplit : ¬(b.dev = dev ∧ b.blockno = bn) ∧ findBuf rest dev bn = none := by
      by_cases hc : b.dev = dev ∧ b.blockno = bn
      · unfold findBuf at hnone
        rw [if_pos hc] at hnone
        exact absurd hnone (by simp)
      · unfold findBuf at hnone
        rw [if_neg hc] at hnone
        refine ⟨hc, ?_⟩
        cases hr : findBuf rest dev bn with
        | none => rfl
        | some j' =>
          rw [hr] at hnone
          exact absurd hnone (by simp)
    cases n with
    | zero =>
      show findBuf (b' :: rest) dev bn = some 0
      simp only [findBuf]
      rw [if_pos ⟨hd, hbn⟩]
    | succ n =>
      show findBuf (b :: updateNth rest n (fun _ => b')) dev bn = some (n + 1)
      simp only [findBuf]
      rw [if_neg hsplit.1]
      rw [List.getElem?_cons_succ] at ha
      rw [ih n a b' hsplit.2 ha hd hbn]
      rfl

theorem bget_post (c c1 : Cache) (now dev blockno i j : Nat) (b1 : Buf)
    (h : bget c now dev blockno = some (c1, i, j))
    (hb1 : bufAt c1 i j = some b1) :
    i = haskBlock blockno ∧ b1.dev = dev ∧ b1.blockno = blockno ∧ b1.locked = true ∧
      findBuf (c1.buckets.getD i []) dev blockno = some j := by
  cases hfind : findBuf (c.buckets.getD (haskBlock blockno) []) dev blockno with
  | some j0 =>
    rw [bget_hit c now dev blockno j0 hfind] at h
    simp only [Option.some_inj, Prod.mk.injEq] at h
    obtain ⟨hc1, hi, hj⟩ := h
    subst hc1
    subst hi
    subst hj
    obtain ⟨b0, hb0, hd0, hbn0⟩ := findBuf_some _ _ _ j0 hfind
    have hba : bufAt c (haskBlock blockno) j0 = some b0 := by
      rw [bufAt_eq_getD]
      exact hb0
    rw [bufAt_updateBufAt] at hb1
    rw [if_pos ⟨rfl, rfl⟩, hba] at hb1
    simp only [Option.map_some', Option.some_inj] at hb1
    refine ⟨rfl, ?_, ?_, ?_, ?_⟩
    · rw [← hb1]
      exact hd0
    · rw [← hb1]
      exact hbn0
    · rw [← hb1]
    · rw [getD_updateBufAt_self,
        findBuf_updateNth_at (c.buckets.getD (haskBlock blockno) []) dev blockno j0
          (fun b => { b with refcnt := b.refcnt + 1, locked := true })
          (fun a _ => ⟨rfl, rfl⟩), hfind]
  | none =>
    cases hvic : findVictim c with
    | none =>
      have hnone : bget c now dev blockno = none := by
        simp only [bget, hfind, hvic]
      rw [hnone] at h
      exact absurd h (by simp)
    | some loc =>
      obtain ⟨minId, mj⟩ := loc
      cases hbv : bufAt c minId mj with
      | none =>
        have hnone : bget c now dev blockno = none := by
          simp only [bget, hfind, hvic, hbv]
        rw [hnone] at h
        exact absurd h (by simp)
      | some v =>
        rw [bget_miss_evict c now dev blockno minId mj v hfind hvic hbv] at h
        by_cases hsame : minId = haskBlock blockno
        · rw [if_pos hsame] at h
          simp only [Option.some_inj, Prod.mk.injEq] at h
          obtain ⟨hc1, hi, hj⟩ := h
          subst hc1
          subst hi
          subst hj
          rw [bufAt_updateBufAt] at hb1
          rw [if_pos ⟨rfl, rfl⟩, hbv] at hb1
          simp only [Option.map_some', Option.some_inj] at hb1
          refine ⟨hsame, ?_, ?_, ?_, ?_⟩
          · rw [← hb1]
          · rw [← hb1]
          · rw [← hb1]
          · rw [getD_updateBufAt_self]
            have hget : (c.buckets.getD minId [])[mj]? = some v := by
              rw [← bufAt_eq_getD]
              exact hbv
            refine findBuf_set_match _ _ _ mj v _ ?_ hget rfl rfl
            rw [hsame]
            exact hfind
        · rw [if_neg hsame] at h
          simp only [Option.some_inj, Prod.mk.injEq] at h
          obtain ⟨hc1, hi, hj⟩ := h
          subst hc1
          subst hi
          subst hj
          have hb1' : bufAt (insertHeadAt (removeBufAt c minId mj) (haskBlock blockno)
              { v with dev := dev, blockno := blockno, valid := false,
                       refcnt := 1, ticks := now, locked := true }) (haskBlock blockno) 0 =
              some b1 := hb1
          cases hbh : (removeBufAt c minId mj).buckets[haskBlock blockno]? with
          | none =>
            unfold bufAt insertHeadAt at hb1'
            rw [getElem?_updateNth, if_pos rfl, hbh] at hb1'
            exact absurd hb1' (by simp)
          | some bkh =>
            unfold bufAt insertHeadAt at hb1'
            rw [getElem?_updateNth, if_pos rfl, hbh] at hb1'
            simp only [Option.map_some', Option.some_bind, List.getElem?_cons_zero,
              Option.some_inj] at hb1'
            refine ⟨rfl, ?_, ?_, ?_, ?_⟩
            · rw [← hb1']
            · rw [← hb1']
            · rw [← hb1']
            · show findBuf ((insertHeadAt (removeBufAt c minId mj) (haskBlock blockno)
                { v with dev := dev, blockno := blockno, valid := false,
                         refcnt := 1, ticks := now, locked := true }).buckets.getD
                  (haskBlock blockno) []) dev blockno = some 0
              have hgd : (insertHeadAt (removeBufAt c minId mj) (haskBlock blockno)
                  { v with dev := dev, blockno := blockno, valid := false,
                           refcnt := 1, ticks := now, locked := true }).buckets.getD
                    (haskBlock blockno) [] =
                  { v with dev := dev, blockno := blockno, valid := false,
                           refcnt := 1, ticks := now, locked := true } :: bkh := by
                show (updateNth (removeBufAt c minId mj).buckets (haskBlock blockno) _).getD
                  (haskBlock blockno) [] = _
                rw [List.getD_eq_getElem?_getD, getElem?_updateNth, if_pos rfl, hbh]
                rfl
              rw [hgd]
              simp [findBuf]

theorem bread_again (c1 c2 : Cache) (i j now2 now3 dev blockno : Nat) (b1 : Buf)
    (hhash : i = haskBlock blockno)
    (hba1 : bufAt c1 i j = some b1)
    (hdev : b1.dev = dev) (hbn : b1.blockno = blockno)
    (hvalid : b1.valid = true)
    (hlock : b1.locked = true)
    (hfb : findBuf (c1.buckets.getD i []) dev blockno = some j)
    (h2 : brelseAt c1 i j now2 = some c2) :
    ∃ c3 : Cache, bread c2 now3 dev blockno = some (c3, (i, j), []) := by
  subst hhash
  have hbr : brelse b1 now2 =
      some ⟨b1.dev, b1.blockno, b1.valid, b1.refcnt - 1,
        if b1.refcnt - 1 = 0 then now2 else b1.ticks, false, b1.data⟩ := by
    unfold brelse
    rw [if_pos hlock]
  have hc2 : c2 = updateBufAt c1 (haskBlock blockno) j (fun _ =>
      ⟨b1.dev, b1.blockno, b1.valid, b1.refcnt - 1,
        if b1.refcnt - 1 = 0 then now2 else b1.ticks, false, b1.data⟩) := by
    simp only [brelseAt, hba1, hbr, Option.map_some', Option.some_inj] at h2
    exact h2.symm
  have hba2 : bufAt c2 (haskBlock blockno) j =
      some ⟨b1.dev, b1.blockno, b1.valid, b1.refcnt - 1,
        if b1.refcnt - 1 = 0 then now2 else b1.ticks, false, b1.data⟩ := by
    rw [hc2, bufAt_updateBufAt, if_pos ⟨rfl, rfl⟩, hba1]
    rfl
  have hfb2 : findBuf (c2.buckets.getD (haskBlock blockno) []) dev blockno = some j := by
    rw [hc2, getD_updateBufAt_self,
      findBuf_updateNth_at (c1.buckets.getD (haskBlock blockno) []) dev blockno j _ ?hpres, hfb]
    case hpres =>
      intro a ha
      have hab : a = b1 := by
        rw [← bufAt_eq_getD, hba1] at ha
        exact (Option.some_inj.mp ha).symm
      rw [hab]
      exact ⟨rfl, rfl⟩
  have hg2 : bget c2 now3 dev blockno =
      some (updateBufAt c2 (haskBlock blockno) j
              (fun b => { b with refcnt := b.refcnt + 1, locked := true }),
            haskBlock blockno, j) :=
    bget_hit c2 now3 dev blockno j hfb2
  have hba3 : bufAt (updateBufAt c2 (haskBlock blockno) j
        (fun b => { b with refcnt := b.refcnt + 1, locked := true }))
      (haskBlock blockno) j =
      some ⟨b1.dev, b1.blockno, b1.valid, b1.refcnt - 1 + 1,
        if b1.refcnt - 1 = 0 then now2 else b1.ticks, true, b1.data⟩ := by
    rw [bufAt_updateBufAt, if_pos ⟨rfl, rfl⟩, hba2]
    rfl
  refine ⟨updateBufAt c2 (haskBlock blockno) j
    (fun b => { b with refcnt := b.refcnt + 1, locked := true }), ?_⟩
  simp only [bread, hg2, hba3]
  rw [if_pos (show (⟨b1.dev, b1.blockno, b1.valid, b1.refcnt - 1 + 1,
    if b1.refcnt - 1 = 0 then now2 else b1.ticks, true, b1.data⟩ : Buf).valid = true from hvalid)]

/-- C10: `bread` performs a device read only when the buffer returned by
`bget` is not yet valid, and then marks it valid: the returned buffer is
always valid, the transfer list is empty exactly when the acquired buffer
was already valid, and — after the buffer is released — a second `bread`
of the same still-cached binding returns the same buffer location and
performs no device transfer at all. -/
theorem bread_io_once (c c1 c2 : Cache) (i j now1 now2 now3 dev blockno : Nat) (evs : List Ev)
    (h1 : bread c now1 dev blockno = some (c1, (i, j), evs))
    (h2 : brelseAt c1 i j now2 = some c2) :
    (evs = [] ∨ evs = [⟨dev, blockno, false⟩]) ∧
    ((bufAt c1 i j).map Buf.valid = some true) ∧
    (∀ (cb : Cache) (ib jb : Nat) (bb : Buf), bget c now1 dev blockno = some (cb, ib, jb) →
      bufAt cb ib jb = some bb → (evs = [] ↔ bb.valid = true)) ∧
    ∃ c3 : Cache, bread c2 now3 dev blockno = some (c3, (i, j), []) := by
  cases hg : bget c now1 dev blockno with
  | none =>
    simp only [bread, hg] at h1
    exact absurd h1 (by simp)
  | some t =>
    obtain ⟨cb, ib, jb⟩ := t
    simp only [bread, hg] at h1
    cases hba : bufAt cb ib jb with
    | none =>
      simp only [hba] at h1
      exact absurd h1 (by simp)
    | some b =>
      simp only [hba] at h1
      by_cases hv : b.valid
      · rw [if_pos hv] at h1
        simp only [Option.some_inj, Prod.mk.injEq] at h1
        obtain ⟨hcb, ⟨hib, hjb⟩, hevs⟩ := h1
        subst hib
        subst hjb
        subst hevs
        obtain ⟨hhash, hdev, hbn, hlock, hfb⟩ :=
          bget_post c cb now1 dev blockno ib jb b hg hba
        have hba1 : bufAt c1 ib jb = some b := hcb ▸ hba
        have hfb1 : findBuf (c1.buckets.getD ib []) dev blockno = some jb := hcb ▸ hfb
        refine ⟨Or.inl rfl, ?_, ?_, ?_⟩
        · rw [hba1]
          simp [hv]
        · intro cb' ib' jb' bb hg' hb'
          simp only [Option.some_inj, Prod.mk.injEq] at hg'
          obtain ⟨h1', h2', h3'⟩ := hg'
          subst h1'
          subst h2'
          subst h3'
          rw [hba] at hb'
          have hbb : bb = b := (Option.some_inj.mp hb').symm
          rw [hbb]
          simp [hv]
        · exact bread_again c1 c2 ib jb now2 now3 dev blockno b hhash hba1 hdev hbn hv hlock hfb1 h2
      · rw [if_neg hv] at h1
        simp only [Option.some_inj, Prod.mk.injEq] at h1
        obtain ⟨hcb, ⟨hib, hjb⟩, hevs⟩ := h1
        subst hib
        subst hjb
        subst hevs
        obtain ⟨hhash, hdev, hbn, hlock, hfb⟩ :=
          bget_post c cb now1 dev blockno ib jb b hg hba
        have hba1 : bufAt c1 ib jb =
            some ⟨b.dev, b.blockno, true, b.refcnt, b.ticks, b.locked, b.data⟩ := by
          rw [← hcb, bufAt_updateBufAt, if_pos ⟨rfl, rfl⟩, hba]
          rfl
        have hfb1 : findBuf (c1.buckets.getD ib []) dev blockno = some jb := by
          rw [← hcb, getD_updateBufAt_self,
            findBuf_updateNth_at (cb.buckets.getD ib []) dev blockno jb
              (fun b0 => { b0 with valid := true }) (fun a _ => ⟨rfl, rfl⟩), hfb]
        refine ⟨Or.inr rfl, ?_, ?_, ?_⟩
        · rw [hba1]
          simp
        · intro cb' ib' jb' bb hg' hb'
          simp only [Option.some_inj, Prod.mk.injEq] at hg'
          obtain ⟨h1', h2', h3'⟩ := hg'
          subst h1'
          subst h2'
          subst h3'
          rw [hba] at hb'
          have hbb : bb = b := (Option.some_inj.mp hb').symm
          rw [hbb]
          simp [hv]
        · exact bread_again c1 c2 ib jb now2 now3 dev blockno
            ⟨b.dev, b.blockno, true, b.refcnt, b.ticks, b.locked, b.data⟩
            hhash hba1 hdev hbn rfl hlock hfb1 h2

/-- Witness for `bread_io_once`: a first read of uncached block 1 evicts
the single unreferenced buffer, performs one device read and marks the
buffer valid; after releasing it, a second read of block 1 performs no
device transfer. -/
theorem bread_io_once_witness :
    (([(⟨1, 1, false⟩ : Ev)] = ([] : List Ev)) ∨
      ([(⟨1, 1, false⟩ : Ev)] = [(⟨1, 1, false⟩ : Ev)])) ∧
    ((bufAt ((bread ⟨[[⟨0, 0, false, 0, 5, false, 0⟩]] ++ List.replicate 12 []⟩ 3 1 1).getD
        (⟨[]⟩, (0, 0), ([] : List Ev))).1 1 0).map Buf.valid = some true) ∧
    (∀ (cb : Cache) (ib jb : Nat) (bb : Buf),
      bget ⟨[[⟨0, 0, false, 0, 5, false, 0⟩]] ++ List.replicate 12 []⟩ 3 1 1 =
        some (cb, ib, jb) →
      bufAt cb ib jb = some bb →
      (([(⟨1, 1, false⟩ : Ev)] = ([] : List Ev)) ↔ bb.valid = true)) ∧
    ∃ c3 : Cache,
      bread ((brelseAt ((bread ⟨[[⟨0, 0, false, 0, 5, false, 0⟩]] ++ List.replicate 12 []⟩ 3 1 1).getD
          (⟨[]⟩, (0, 0), ([] : List Ev))).1 1 0 4).getD ⟨[]⟩) 7 1 1 =
        some (c3, (1, 0), ([] : List Ev)) :=
  bread_io_once ⟨[[⟨0, 0, false, 0, 5, false, 0⟩]] ++ List.replicate 12 []⟩
    ((bread ⟨[[⟨0, 0, false, 0, 5, false, 0⟩]] ++ List.replicate 12 []⟩ 3 1 1).getD
      (⟨[]⟩, (0, 0), ([] : List Ev))).1
    ((brelseAt ((bread ⟨[[⟨0, 0, false, 0, 5, false, 0⟩]] ++ List.replicate 12 []⟩ 3 1 1).getD
        (⟨[]⟩, (0, 0), ([] : List Ev))).1 1 0 4).getD ⟨[]⟩)
    1 0 3 4 7 1 1 [⟨1, 1, false⟩] (by decide) (by decide)
